import Mathlib

/-!
Shallow embedding of the `@nolawnchairs/lru` LRU map library
(`src/LRUMap.ts`: `LRUAbstractMap`, `LRUMap`, `LRUSizedMap`).

JS data structures are modelled as follows:
* `this.items : Entry[]` becomes `List (Entry K V)`;
* `this.frames : Map<K, number>` becomes an association list `List (K × Nat)`
  kept in insertion order, with `mapGet`/`mapSet` modelling `Map.get`/`Map.set`
  (update-in-place keeps the original position, fresh keys append — exactly the
  JS `Map` insertion-order semantics);
* JS numbers that hold capacities or byte tallies become `Int`
  (they can be negative); array indices become `Nat`;
* operations that can hit a JS `TypeError` (reading a property of `undefined`
  after an out-of-range index lookup) or that run an unbounded `while` loop
  return `Option`; `none` means the call does not return normally.
-/

namespace LRUSpec

inductive LRUMemoryStrategy where
  | ITEMS
  | BYTES
deriving DecidableEq

structure Entry (K V : Type) where
  key : K
  value : V
deriving DecidableEq

structure LRUState (K V : Type) where
  strategy : LRUMemoryStrategy
  capacity : Int
  items : List (Entry K V)
  frames : List (K × Nat)
  bytesUsed : Int
deriving DecidableEq

/-- `Map.prototype.get`: value of the first (only) binding of `k`. -/
def mapGet {K : Type} [DecidableEq K] : List (K × Nat) → K → Option Nat
  | [], _ => none
  | (k1, i) :: rest, k => if k1 = k then some i else mapGet rest k

/-- `Map.prototype.set`: update the binding in place, or append a fresh one. -/
def mapSet {K : Type} [DecidableEq K] : List (K × Nat) → K → Nat → List (K × Nat)
  | [], k, i => [(k, i)]
  | (k1, j) :: rest, k, i =>
    if k1 = k then (k, i) :: rest else (k1, j) :: mapSet rest k i

/-- `list[i]` for a JS array: `undefined` out of range. -/
def nth {α : Type} : List α → Nat → Option α
  | [], _ => none
  | a :: _, 0 => some a
  | _ :: rest, n + 1 => nth rest n

/-- `list[list.length - 1]`: the last element, `undefined` when empty. -/
def lastE {α : Type} : List α → Option α
  | [] => none
  | [a] => some a
  | _ :: b :: rest => lastE (b :: rest)

/-- `array.splice(i, 1)` with `0 ≤ i`: drop the element at `i`
(no-op past the end, as JS clamps the start index). -/
def removeAt {α : Type} : List α → Nat → List α
  | [], _ => []
  | _ :: rest, 0 => rest
  | a :: rest, n + 1 => a :: removeAt rest n

/-- `keys.indexOf(k)` followed by `keys.splice(index, 1)` when `index > -1`:
remove the first occurrence, keep the list when absent. -/
def eraseFirst {K : Type} [DecidableEq K] : List K → K → List K
  | [], _ => []
  | a :: rest, k => if a = k then rest else a :: eraseFirst rest k

/-- The reindexing loop `for (i = 0; i < len; i++) frames.set(keys[i], i)`
run on a cleared map over distinct keys: bindings in order with indices
starting at `i`. -/
def reindexFrom {K : Type} (i : Nat) : List K → List (K × Nat)
  | [] => []
  | k :: rest => (k, i) :: reindexFrom (i + 1) rest

/-- `[...this.frames.keys()]`. -/
def framesKeys {K V : Type} (s : LRUState K V) : List K :=
  s.frames.map Prod.fst

/-- `LRUAbstractMap.promoteFrame` (src/unnamed/part_003 lines 309-322). -/
def promoteFrame {K V : Type} [DecidableEq K] (s : LRUState K V) (k : K) :
    LRUState K V :=
  let keys2 := k :: eraseFirst (framesKeys s) k
  let len :=
    if s.capacity > -1 ∧ s.strategy = LRUMemoryStrategy.ITEMS then
      min keys2.length s.capacity.toNat
    else keys2.length
  { s with frames := reindexFrom 0 (keys2.take len) }

/-- `LRUAbstractMap.dropFrame` (lines 289-299).  When the key is absent,
`indexOf` gives `-1` and `splice(-1, 1)` removes the LAST element; the only
caller (`remove`) reaches it with the key present. -/
def dropFrame {K V : Type} [DecidableEq K] (s : LRUState K V) (k : K) :
    LRUState K V :=
  let keys0 := framesKeys s
  let keys1 := if k ∈ keys0 then eraseFirst keys0 k else keys0.dropLast
  let len :=
    if s.capacity > -1 then min keys1.length s.capacity.toNat
    else keys1.length
  { s with frames := reindexFrom 0 (keys1.take len) }

/-- `LRUAbstractMap.evictOverflow` (lines 330-333): `items.splice(frames.size)`
truncates the store to the index size when the capacity is bounded. -/
def evictOverflowItems {K V : Type} (s : LRUState K V) : LRUState K V :=
  if s.capacity > -1 then { s with items := s.items.take s.frames.length }
  else s

/-- `LRUAbstractMap.has` (lines 174-176). -/
def hasKey {K V : Type} [DecidableEq K] (s : LRUState K V) (k : K) : Bool :=
  (mapGet s.frames k).isSome

/-- `LRUAbstractMap.peek` (lines 91-97); `none` (outer) models the `TypeError`
raised by destructuring `this.items[index]` when the index is out of range. -/
def peekRun {K V : Type} [DecidableEq K] (s : LRUState K V) (k : K) :
    Option (Option V) :=
  match mapGet s.frames k with
  | none => some none
  | some i =>
    match nth s.items i with
    | none => none
    | some e => some (some e.value)

/-- `LRUAbstractMap.get` (lines 73-82): splice the entry out, unshift it to the
front, promote the frame, return the value.  `none` models the `TypeError` on
`entry.value` when `this.items[index]` is `undefined`. -/
def getShared {K V : Type} [DecidableEq K] (k : K) (s : LRUState K V) :
    Option (Option V × LRUState K V) :=
  match mapGet s.frames k with
  | none => some (none, s)
  | some i =>
    match nth s.items i with
    | none => none
    | some e =>
      some (some e.value, promoteFrame { s with items := e :: removeAt s.items i } k)

/-- `LRUAbstractMap.set` (lines 107-117), parameterized by the dynamically
dispatched `this.evictOverflow()`.  Writing `items[index]` past the end of the
array would create a sparse JS array our typed model cannot hold, so that
branch (unreachable from index-consistent states) is `none`. -/
def setShared {K V : Type} [DecidableEq K]
    (evict : LRUState K V → Option (LRUState K V)) (k : K) (v : V)
    (s : LRUState K V) : Option (LRUState K V) :=
  match mapGet s.frames k with
  | some i =>
    if i < s.items.length then
      evict (promoteFrame { s with items := s.items.set i ⟨k, v⟩ } k)
    else none
  | none => evict (promoteFrame { s with items := ⟨k, v⟩ :: s.items } k)

/-- `LRUMap.set`: the abstract `set` with the count-based `evictOverflow`. -/
def setCount {K V : Type} [DecidableEq K] (k : K) (v : V) (s : LRUState K V) :
    Option (LRUState K V) :=
  setShared (fun s1 => some (evictOverflowItems s1)) k v s

/-- `LRUAbstractMap.remove` (lines 126-134). -/
def removeShared {K V : Type} [DecidableEq K] (k : K) (s : LRUState K V) :
    Option (Option V × LRUState K V) :=
  match mapGet s.frames k with
  | none => some (none, s)
  | some i =>
    match nth s.items i with
    | none => none
    | some e =>
      some (some e.value, dropFrame { s with items := removeAt s.items i } k)

/-- `LRUSizedMap.remove` (lines 506-509): decrement the tally by
`this.peek(key)?.length ?? 0`, then delegate to the shared removal. -/
def removeSized {K V : Type} [DecidableEq K] (vlen : V → Nat) (k : K)
    (s : LRUState K V) : Option (Option V × LRUState K V) :=
  match peekRun s k with
  | none => none
  | some pv =>
    let l : Int := match pv with | none => 0 | some v => (vlen v : Int)
    removeShared k { s with bytesUsed := s.bytesUsed - l }

/-- `LRUAbstractMap.delete` (lines 143-145): `!!this.remove(key)`; a JS-falsy
removed value (modelled by `truthy`) coerces to `false`. -/
def deleteCount {K V : Type} [DecidableEq K] (truthy : V → Bool) (k : K)
    (s : LRUState K V) : Option (Bool × LRUState K V) :=
  match removeShared k s with
  | none => none
  | some (r, s1) => some ((r.map truthy).getD false, s1)

/-- `LRUSizedMap.evictOverflow` (lines 529-533): `while (bytesUsed > capacity)
delete(tail.key)`.  Fuel bounds the loop; `none` also covers the `TypeError`
on `this.tail.key` when the store is empty.  `delete` dispatches to the sized
`remove`; its boolean result is discarded. -/
def evictOverflowBytes {K V : Type} [DecidableEq K] (vlen : V → Nat) :
    Nat → LRUState K V → Option (LRUState K V)
  | 0, _ => none
  | fuel + 1, s =>
    if s.bytesUsed > s.capacity then
      match lastE s.items with
      | none => none
      | some e =>
        match removeSized vlen e.key s with
        | none => none
        | some (_, s1) => evictOverflowBytes vlen fuel s1
    else some s

/-- `LRUSizedMap.accommodate` (lines 491-496):
`while (bytesUsed + bytes > capacity) delete(tail.key)`. -/
def accommodateRun {K V : Type} [DecidableEq K] (vlen : V → Nat) :
    Nat → Int → LRUState K V → Option (LRUState K V)
  | 0, _, _ => none
  | fuel + 1, bytes, s =>
    if s.bytesUsed + bytes > s.capacity then
      match lastE s.items with
      | none => none
      | some e =>
        match removeSized vlen e.key s with
        | none => none
        | some (_, s1) => accommodateRun vlen fuel bytes s1
    else some s

/-- `LRUSizedMap.set` (lines 474-480).  `assertValueIsValid` always passes:
the model type `V` ranges over valid `ByteLengthAware` values, with `vlen`
their reported byte length. -/
def setSized {K V : Type} [DecidableEq K] (vlen : V → Nat) (fuel : Nat)
    (k : K) (v : V) (s : LRUState K V) : Option (LRUState K V) :=
  if hasKey s k then
    match peekRun s k with
    | some (some oldValue) =>
      setShared (evictOverflowBytes vlen fuel) k v
        { s with bytesUsed := s.bytesUsed - (vlen oldValue : Int) + (vlen v : Int) }
    | _ => none
  else
    setShared (evictOverflowBytes vlen fuel) k v
      { s with bytesUsed := s.bytesUsed + (vlen v : Int) }

/-- `LRUAbstractMap.clear` (lines 183-186). -/
def clearShared {K V : Type} (s : LRUState K V) : LRUState K V :=
  { s with items := [], frames := [] }

/-- The constructor loop over the (reversed, possibly truncated) initial
entries: `items.push(Entry.of(items[i])); frames.set(items[i][0], i)`. -/
def buildFrames {K V : Type} [DecidableEq K] :
    List (K × V) → Nat → List (K × Nat) → List (K × Nat)
  | [], _, m => m
  | (k, _) :: rest, i, m => buildFrames rest (i + 1) (mapSet m k i)

/-- `LRUAbstractMap`'s constructor (lines 42-53); `none` models the thrown
`Error` for an `ITEMS` map with capacity 0 or 1. -/
def constructShared {K V : Type} [DecidableEq K] (strat : LRUMemoryStrategy)
    (capacity : Int) (entries : List (K × V)) : Option (LRUState K V) :=
  if strat = LRUMemoryStrategy.ITEMS ∧ (capacity = 0 ∨ capacity = 1) then none
  else
    let all := entries.reverse
    let its := if capacity > -1 then all.take capacity.toNat else all
    some { strategy := strat, capacity := capacity,
           items := its.map (fun p => ⟨p.1, p.2⟩),
           frames := buildFrames its 0 [],
           bytesUsed := 0 }

/-- `LRUMap`'s constructor (lines 372-374): `super(ITEMS, capacity, entries)`.
The standalone `LRUMap` in `src/LRUArray.ts` throws under exactly the same
`capacity === 0 || capacity === 1` test. -/
def constructCount {K V : Type} [DecidableEq K] (capacity : Int)
    (entries : List (K × V)) : Option (LRUState K V) :=
  constructShared LRUMemoryStrategy.ITEMS capacity entries

/-- The `LRUSizedMap` constructor loop (lines 436-443): for each pair of the
reversed iterable, `accommodate(value.length)`, push the entry, and
`frames.set(key, i)` with `i` the loop counter. -/
def constructSizedLoop {K V : Type} [DecidableEq K] (vlen : V → Nat)
    (fuel : Nat) : List (K × V) → Nat → LRUState K V → Option (LRUState K V)
  | [], _, s => some s
  | (k, v) :: rest, i, s =>
    match accommodateRun vlen fuel (vlen v : Int) s with
    | none => none
    | some s1 =>
      constructSizedLoop vlen fuel rest (i + 1)
        { s1 with items := s1.items ++ [⟨k, v⟩], frames := mapSet s1.frames k i }

/-- `LRUSizedMap`'s constructor (lines 430-445).  `super(BYTES, maxBytes)` is
called without entries, so the abstract constructor does nothing; the line
`this.bytesUsed = [...this.values()].reduce(...)` runs BEFORE the entries are
inserted — and `values()` iterates `Object.values(this.frames)`, which is
empty for a JS `Map` in any case — so the tally starts the loop at 0. -/
def constructSized {K V : Type} [DecidableEq K] (vlen : V → Nat) (fuel : Nat)
    (maxBytes : Int) (entries : List (K × V)) : Option (LRUState K V) :=
  if maxBytes < 1 then none
  else
    constructSizedLoop vlen fuel entries.reverse 0
      { strategy := LRUMemoryStrategy.BYTES, capacity := maxBytes,
        items := [], frames := [], bytesUsed := 0 }

/-- Insertion step of `.sort((a, b) => a - b)` on the index array. -/
def insertSorted (n : Nat) : List Nat → List Nat
  | [] => [n]
  | m :: rest => if n ≤ m then n :: m :: rest else m :: insertSorted n rest

/-- Numeric ascending sort, modelling `.sort((a, b) => a - b)`. -/
def sortAsc (l : List Nat) : List Nat :=
  l.foldr insertSorted []

/-- `Object.values` applied to a JS `Map` instance yields `[]`: a `Map`'s
entries are internal slots, not own enumerable properties. -/
def objectValuesOfFrames {K : Type} (_ : List (K × Nat)) : List Nat :=
  []

/-- Look every index of the list up in `items`; `none` models the `TypeError`
raised when `this.items[i]` is `undefined`. -/
def collectAt {α : Type} (items : List α) : List Nat → Option (List α)
  | [] => some []
  | i :: rest =>
    match nth items i with
    | none => none
    | some a => (collectAt items rest).map (a :: ·)

/-- `LRUAbstractMap.entryIterator` (lines 234-239): iterates
`Object.values(this.frames).sort((a, b) => a - b)`. -/
def entryIteratorRun {K V : Type} (s : LRUState K V) :
    Option (List (Entry K V)) :=
  collectAt s.items (sortAsc (objectValuesOfFrames s.frames))

/-- `LRUAbstractMap.entries` (lines 222-226), also the default iteration
protocol `[Symbol.iterator]` (lines 210-213). -/
def entriesRun {K V : Type} (s : LRUState K V) : Option (List (K × V)) :=
  (entryIteratorRun s).map (List.map fun e => (e.key, e.value))

/-- `LRUAbstractMap.values` (lines 262-267): also over
`Object.values(this.frames)`. -/
def valuesRun {K V : Type} (s : LRUState K V) : Option (List V) :=
  (collectAt s.items (sortAsc (objectValuesOfFrames s.frames))).map
    (List.map Entry.value)

/-- `LRUAbstractMap.keys` (lines 248-253): this one iterates
`[...this.frames.values()].sort((a, b) => a - b)` — the actual indices. -/
def keysRun {K V : Type} (s : LRUState K V) : Option (List K) :=
  (collectAt s.items (sortAsc (s.frames.map Prod.snd))).map
    (List.map Entry.key)

/-- `LRUAbstractMap.tail` (lines 153-155). -/
def tailEntry {K V : Type} (s : LRUState K V) : Option (Entry K V) :=
  lastE s.items

/-- `LRUAbstractMap.head` (lines 163-165). -/
def headEntry {K V : Type} (s : LRUState K V) : Option (Entry K V) :=
  nth s.items 0

/-- The keys of the entry store, in store order. -/
def keysOf {K V : Type} (s : LRUState K V) : List K :=
  s.items.map Entry.key

/-- The value stored for a key, by scanning the entry store. -/
def lookupValue {K V : Type} [DecidableEq K] (s : LRUState K V) (k : K) :
    Option V :=
  lookupList s.items k
where
  lookupList : List (Entry K V) → K → Option V
    | [], _ => none
    | e :: rest, k => if e.key = k then some e.value else lookupList rest k

/-- Total byte length of all currently stored values. -/
def sumBytes {K V : Type} (vlen : V → Nat) (s : LRUState K V) : Nat :=
  (s.items.map fun e => vlen e.value).sum

/-- Well-formedness: the frame index is exactly the store's key sequence
indexed in order, store keys are distinct, and a bounded count-based map
holds no more entries than its capacity. -/
def WF {K V : Type} (s : LRUState K V) : Prop :=
  s.frames = reindexFrom 0 (keysOf s) ∧ (keysOf s).Nodup ∧
    (s.strategy = LRUMemoryStrategy.ITEMS → 0 ≤ s.capacity →
      s.items.length ≤ s.capacity.toNat)

/-- The index-consistency property as the specification states it: one index
entry per stored key, positions dense in `0..size-1`, and
`items[frames[k]].key = k`. -/
def IndexConsistent {K V : Type} (s : LRUState K V) : Prop :=
  (s.frames.map Prod.fst).Nodup ∧
    (∀ k, k ∈ s.frames.map Prod.fst ↔ k ∈ keysOf s) ∧
    (s.frames.map Prod.snd).Perm (List.range s.items.length) ∧
    (∀ k i, (k, i) ∈ s.frames → ∃ e, nth s.items i = some e ∧ e.key = k)

/-- JS truthiness of a numeric value: `0` (and `NaN`) coerce to `false`. -/
def jsTruthyNat (v : Nat) : Bool :=
  v ≠ 0

instance decidableWF {K V : Type} [DecidableEq K] [DecidableEq V]
    (s : LRUState K V) : Decidable (WF s) := by
  unfold WF
  infer_instance

/-- The public operations of the count-based variant. -/
inductive CountOp (K V : Type) where
  | getC (k : K)
  | peekC (k : K)
  | setC (k : K) (v : V)
  | removeC (k : K)
  | deleteC (k : K)
  | clearC

/-- State effect of one public count-based operation.  `peek` leaves the state
unchanged; `delete` is `!!remove`, whose state effect is `remove`'s. -/
def applyCount {K V : Type} [DecidableEq K] :
    CountOp K V → LRUState K V → Option (LRUState K V)
  | CountOp.getC k, s => (getShared k s).map Prod.snd
  | CountOp.peekC k, s => (peekRun s k).map fun _ => s
  | CountOp.setC k v, s => setCount k v s
  | CountOp.removeC k, s => (removeShared k s).map Prod.snd
  | CountOp.deleteC k, s => (removeShared k s).map Prod.snd
  | CountOp.clearC, s => some (clearShared s)

/-- Guard for the amended index-consistency claim: `set` is restricted to a
key that is absent or already at the head. -/
def okCountOp {K V : Type} [DecidableEq K] :
    CountOp K V → LRUState K V → Prop
  | CountOp.setC k _, s =>
    mapGet s.frames k = none ∨ mapGet s.frames k = some 0
  | _, _ => True

/-- The public byte-variant operations quantified over by the byte-budget
claim. -/
inductive SizedOp (K V : Type) where
  | setS (k : K) (v : V)
  | removeS (k : K)
  | accommodateS (bytes : Int)

/-- State effect of one public byte-based operation. -/
def stepSized {K V : Type} [DecidableEq K] (vlen : V → Nat) (fuel : Nat) :
    SizedOp K V → LRUState K V → Option (LRUState K V)
  | SizedOp.setS k v, s => setSized vlen fuel k v s
  | SizedOp.removeS k, s => (removeSized vlen k s).map Prod.snd
  | SizedOp.accommodateS b, s => accommodateRun vlen fuel b s

/-- Byte length of a modelled `Buffer` value: the value is its byte count. -/
def vlenNat : Nat → Nat := fun v => v

/-- Reachable run for the index-consistency counterexample:
`new LRUMap(5, [[0, 100], [1, 101]])` followed by `set(0, 999)` on the
existing non-head key `0`. -/
def c1Run : Option (LRUState Nat Nat) :=
  (constructCount 5 [(0, 100), (1, 101)]).bind (setCount 0 999)

/-- The state `c1Run` reaches: the store still holds key `1` at position 0,
but the index claims key `0` is at position 0. -/
def c1State : LRUState Nat Nat :=
  ⟨LRUMemoryStrategy.ITEMS, 5, [⟨1, 101⟩, ⟨0, 999⟩], [(0, 0), (1, 1)], 0⟩

/-- Byte-variant construction with one initial two-byte entry:
`new LRUSizedMap(10, [[0, <2-byte value>]])`. -/
def c2Run : Option (LRUState Nat Nat) :=
  constructSized vlenNat 100 10 [(0, 2)]

/-- The state `c2Run` reaches: the entry is stored but the tally is 0. -/
def c2State : LRUState Nat Nat :=
  ⟨LRUMemoryStrategy.BYTES, 10, [⟨0, 2⟩], [(0, 0)], 0⟩

/-- `new LRUMap(5, [[0, 100], [1, 101]])` for the iteration claim. -/
def c3Run : Option (LRUState Nat Nat) :=
  constructCount 5 [(0, 100), (1, 101)]

/-- The two-entry state `c3Run` reaches. -/
def c3State : LRUState Nat Nat :=
  ⟨LRUMemoryStrategy.ITEMS, 5, [⟨1, 101⟩, ⟨0, 100⟩], [(1, 0), (0, 1)], 0⟩

/-- Reachable run for the `accommodate` counterexample: byte budget 10,
`set(0, <4 bytes>)`, `set(1, <1 byte>)`, then `set(0, <1 byte>)` updating the
non-head key `0` (which desynchronizes store and index). -/
def c6Run : Option (LRUState Nat Nat) :=
  (((constructSized vlenNat 100 10 []).bind
      (setSized vlenNat 100 0 4)).bind
        (setSized vlenNat 100 1 1)).bind
          (setSized vlenNat 100 0 1)

/-- The state `c6Run` reaches: tail is key `0`, but the index points key `0`
at position 0 where key `1` lives. -/
def c6State : LRUState Nat Nat :=
  ⟨LRUMemoryStrategy.BYTES, 10, [⟨1, 1⟩, ⟨0, 1⟩], [(0, 0), (1, 1)], 2⟩

/-- What `accommodate(9)` leaves behind on `c6State`: the head entry of key
`1` was evicted, the tail entry of key `0` survived. -/
def c6After : LRUState Nat Nat :=
  ⟨LRUMemoryStrategy.BYTES, 10, [⟨0, 1⟩], [(1, 0)], 1⟩

/-- `new LRUMap(-1, [[7, 0]])` then `delete(7)`: the stored value `0` is
JS-falsy, so `!!this.remove(key)` is `false` although the entry existed and
was removed. -/
def c7Run : Option (Bool × LRUState Nat Nat) :=
  (constructCount (-1) [(7, 0)]).bind (deleteCount jsTruthyNat 7)

/-- Reachable run for the `get` counterexample (same shape as `c1Run`). -/
def c8Run : Option (LRUState Nat Nat) :=
  (constructCount 5 [(0, 100), (1, 101)]).bind (setCount 0 999)

/-- The desynchronized state `c8Run` reaches. -/
def c8State : LRUState Nat Nat :=
  ⟨LRUMemoryStrategy.ITEMS, 5, [⟨1, 101⟩, ⟨0, 999⟩], [(0, 0), (1, 1)], 0⟩

/-- A one-entry well-formed count-based state used by witnesses. -/
def w1State : LRUState Nat Nat :=
  ⟨LRUMemoryStrategy.ITEMS, 5, [⟨0, 1⟩], [(0, 0)], 0⟩

/-- A two-entry well-formed count-based state used by witnesses. -/
def w2State : LRUState Nat Nat :=
  ⟨LRUMemoryStrategy.ITEMS, 3, [⟨4, 40⟩, ⟨5, 50⟩], [(4, 0), (5, 1)], 0⟩

/-- A two-entry well-formed byte-based state used by witnesses. -/
def wbState : LRUState Nat Nat :=
  ⟨LRUMemoryStrategy.BYTES, 10, [⟨4, 4⟩, ⟨5, 3⟩], [(4, 0), (5, 1)], 7⟩

/-- What `set(1, 2)` leaves of `w1State`. -/
def w1After : LRUState Nat Nat :=
  ⟨LRUMemoryStrategy.ITEMS, 5, [⟨1, 2⟩, ⟨0, 1⟩], [(1, 0), (0, 1)], 0⟩

/-- What `set(6, 60)` leaves of `w2State`. -/
def w2After : LRUState Nat Nat :=
  ⟨LRUMemoryStrategy.ITEMS, 3, [⟨6, 60⟩, ⟨4, 40⟩, ⟨5, 50⟩],
    [(6, 0), (4, 1), (5, 2)], 0⟩

/-- An empty byte-based state with budget 10. -/
def w4State : LRUState Nat Nat :=
  ⟨LRUMemoryStrategy.BYTES, 10, [], [], 0⟩

/-- What `set(0, <3 bytes>)` leaves of `w4State`. -/
def w4After : LRUState Nat Nat :=
  ⟨LRUMemoryStrategy.BYTES, 10, [⟨0, 3⟩], [(0, 0)], 3⟩

/-- What `accommodate(5)` leaves of `wbState`. -/
def wbAfter : LRUState Nat Nat :=
  ⟨LRUMemoryStrategy.BYTES, 10, [⟨4, 4⟩], [(4, 0)], 4⟩

/-- A one-entry count-based state with a negative (unbounded) capacity. -/
def w10State : LRUState Nat Nat :=
  ⟨LRUMemoryStrategy.ITEMS, -2, [⟨0, 5⟩], [(0, 0)], 0⟩

/-- What `set(2, 7)` leaves of `w10State`: nothing evicted. -/
def w10After : LRUState Nat Nat :=
  ⟨LRUMemoryStrategy.ITEMS, -2, [⟨2, 7⟩, ⟨0, 5⟩], [(2, 0), (0, 1)], 0⟩

/-! ### Helper lemmas about the list-level building blocks -/

theorem map_fst_reindexFrom {K : Type} (i : Nat) (ks : List K) :
    (reindexFrom i ks).map Prod.fst = ks := by
  induction ks generalizing i with
  | nil => rfl
  | cons k rest ih => simp [reindexFrom, ih]

theorem length_reindexFrom {K : Type} (i : Nat) (ks : List K) :
    (reindexFrom i ks).length = ks.length := by
  induction ks generalizing i with
  | nil => rfl
  | cons k rest ih => simp [reindexFrom, ih]

theorem map_snd_reindexFrom {K : Type} (i : Nat) (ks : List K) :
    (reindexFrom i ks).map Prod.snd = List.range' i ks.length := by
  induction ks generalizing i with
  | nil => rfl
  | cons k rest ih => simp [reindexFrom, List.range', ih]

theorem mapGet_reindexFrom_eq_none {K : Type} [DecidableEq K] (i : Nat)
    (ks : List K) (k : K) : mapGet (reindexFrom i ks) k = none ↔ k ∉ ks := by
  induction ks generalizing i with
  | nil => simp [reindexFrom, mapGet]
  | cons k1 rest ih =>
    by_cases h : k1 = k
    · subst h; simp [reindexFrom, mapGet]
    · simp [reindexFrom, mapGet, h, ih, Ne.symm h]

theorem mapGet_reindexFrom_eq_some {K : Type} [DecidableEq K] {i : Nat}
    {ks : List K} {k : K} {j : Nat}
    (h : mapGet (reindexFrom i ks) k = some j) :
    ∃ j0, j = i + j0 ∧ nth ks j0 = some k ∧
      ∀ m, m < j0 → nth ks m ≠ some k := by
  induction ks generalizing i with
  | nil => simp [reindexFrom, mapGet] at h
  | cons k1 rest ih =>
    by_cases hk : k1 = k
    · subst hk
      simp [reindexFrom, mapGet] at h
      exact ⟨0, by omega, rfl, fun m hm => absurd hm (by omega)⟩
    · simp [reindexFrom, mapGet, hk] at h
      obtain ⟨j0, hj, hnth, hfirst⟩ := ih h
      refine ⟨j0 + 1, by omega, hnth, ?_⟩
      intro m hm
      match m with
      | 0 =>
        intro he
        simp [nth] at he
        exact hk he
      | m + 1 =>
        intro he
        simp only [nth] at he
        exact hfirst m (by omega) he

theorem mapGet_reindexFrom_of_first {K : Type} [DecidableEq K] (i : Nat)
    {ks : List K} {k : K} {j0 : Nat} (hnth : nth ks j0 = some k)
    (hfirst : ∀ m, m < j0 → nth ks m ≠ some k) :
    mapGet (reindexFrom i ks) k = some (i + j0) := by
  induction ks generalizing i j0 with
  | nil => simp [nth] at hnth
  | cons k1 rest ih =>
    match j0 with
    | 0 =>
      simp [nth] at hnth
      simp [reindexFrom, mapGet, hnth]
    | j1 + 1 =>
      have hne : k1 ≠ k := by
        intro he
        exact hfirst 0 (by omega) (by simp [nth, he])
      simp only [nth] at hnth
      have hrest : ∀ m, m < j1 → nth rest m ≠ some k := by
        intro m hm he
        exact hfirst (m + 1) (by omega) (by simp only [nth]; exact he)
      have := ih (i + 1) hnth hrest
      simp only [reindexFrom, mapGet, hne, if_false]
      rw [this]
      congr 1
      omega

theorem mem_reindexFrom {K : Type} {i : Nat} {ks : List K} {k : K} {j : Nat}
    (h : (k, j) ∈ reindexFrom i ks) : ∃ j0, j = i + j0 ∧ nth ks j0 = some k := by
  induction ks generalizing i with
  | nil => simp [reindexFrom] at h
  | cons k1 rest ih =>
    simp only [reindexFrom, List.mem_cons] at h
    rcases h with h | h
    · obtain ⟨hk, hj⟩ := Prod.mk.inj h
      exact ⟨0, by omega, by rw [hk]; rfl⟩
    · obtain ⟨j0, hj, hnth⟩ := ih h
      exact ⟨j0 + 1, by omega, by simp only [nth]; exact hnth⟩

theorem nth_map {α β : Type} (f : α → β) (l : List α) (j : Nat) :
    nth (l.map f) j = (nth l j).map f := by
  induction l generalizing j with
  | nil => simp [nth]
  | cons a rest ih =>
    match j with
    | 0 => rfl
    | j + 1 => simp only [List.map_cons, nth]; exact ih j

theorem nth_mem {α : Type} {l : List α} {j : Nat} {a : α}
    (h : nth l j = some a) : a ∈ l := by
  induction l generalizing j with
  | nil => simp [nth] at h
  | cons b rest ih =>
    match j with
    | 0 => simp [nth] at h; simp [h]
    | j + 1 => simp only [nth] at h; exact List.mem_cons_of_mem _ (ih h)

theorem nth_lt_length {α : Type} {l : List α} {j : Nat} {a : α}
    (h : nth l j = some a) : j < l.length := by
  induction l generalizing j with
  | nil => simp [nth] at h
  | cons b rest ih =>
    match j with
    | 0 => simp
    | j + 1 =>
      simp only [nth] at h
      have := ih h
      simp only [List.length_cons]
      omega

theorem nth_append_right_last {α : Type} (l : List α) (a : α) :
    nth (l ++ [a]) l.length = some a := by
  induction l with
  | nil => rfl
  | cons b rest ih => simpa [nth] using ih

theorem nth_append_left {α : Type} {l : List α} (l2 : List α) {j : Nat}
    (h : j < l.length) : nth (l ++ l2) j = nth l j := by
  induction l generalizing j with
  | nil => simp at h
  | cons b rest ih =>
    match j with
    | 0 => rfl
    | j + 1 =>
      simp only [List.cons_append, nth]
      exact ih (by simp only [List.length_cons] at h; omega)

theorem map_removeAt {α β : Type} (f : α → β) (l : List α) (j : Nat) :
    (removeAt l j).map f = removeAt (l.map f) j := by
  induction l generalizing j with
  | nil => simp [removeAt]
  | cons a rest ih =>
    match j with
    | 0 => rfl
    | j + 1 => simp only [List.map_cons, removeAt, ih]

theorem length_removeAt {α : Type} {l : List α} {j : Nat} {a : α}
    (h : nth l j = some a) : (removeAt l j).length + 1 = l.length := by
  induction l generalizing j with
  | nil => simp [nth] at h
  | cons b rest ih =>
    match j with
    | 0 => rfl
    | j + 1 => simp only [nth] at h; simpa [removeAt] using ih h

theorem removeAt_append_last {α : Type} (l : List α) (a : α) :
    removeAt (l ++ [a]) l.length = l := by
  induction l with
  | nil => rfl
  | cons b rest ih => simpa [removeAt] using ih

theorem eraseFirst_of_not_mem {K : Type} [DecidableEq K] {l : List K} {k : K}
    (h : k ∉ l) : eraseFirst l k = l := by
  induction l with
  | nil => rfl
  | cons a rest ih =>
    have ha : a ≠ k := fun he => h (by simp [he])
    simp only [eraseFirst, ha, if_false]
    rw [ih (fun hm => h (List.mem_cons_of_mem _ hm))]

theorem mem_of_mem_eraseFirst {K : Type} [DecidableEq K] {l : List K}
    {k a : K} (h : a ∈ eraseFirst l k) : a ∈ l := by
  induction l with
  | nil => simp [eraseFirst] at h
  | cons b rest ih =>
    by_cases hb : b = k
    · simp only [eraseFirst, hb, if_true] at h
      exact List.mem_cons_of_mem _ h
    · simp only [eraseFirst, hb, if_false, List.mem_cons] at h
      rcases h with h | h
      · simp [h]
      · exact List.mem_cons_of_mem _ (ih h)

theorem nodup_eraseFirst {K : Type} [DecidableEq K] {l : List K} (k : K)
    (h : l.Nodup) : (eraseFirst l k).Nodup := by
  induction l with
  | nil => exact h
  | cons b rest ih =>
    rw [List.nodup_cons] at h
    by_cases hb : b = k
    · simpa only [eraseFirst, hb, if_true] using h.2
    · simp only [eraseFirst, hb, if_false, List.nodup_cons]
      exact ⟨fun hm => h.1 (mem_of_mem_eraseFirst hm), ih h.2⟩

theorem not_mem_eraseFirst_self {K : Type} [DecidableEq K] {l : List K}
    {k : K} (h : l.Nodup) : k ∉ eraseFirst l k := by
  induction l with
  | nil => simp [eraseFirst]
  | cons b rest ih =>
    rw [List.nodup_cons] at h
    by_cases hb : b = k
    · subst hb
      simpa only [eraseFirst, if_true] using fun hm => h.1 hm
    · simp only [eraseFirst, hb, if_false, List.mem_cons]
      rintro (h1 | h2)
      · exact hb h1.symm
      · exact ih h.2 h2

theorem length_eraseFirst_of_mem {K : Type} [DecidableEq K] {l : List K}
    {k : K} (h : k ∈ l) : (eraseFirst l k).length + 1 = l.length := by
  induction l with
  | nil => simp at h
  | cons b rest ih =>
    by_cases hb : b = k
    · simp [eraseFirst, hb]
    · have hm : k ∈ rest := by
        rcases List.mem_cons.mp h with h1 | h1
        · exact absurd h1.symm hb
        · exact h1
      simpa [eraseFirst, hb] using ih hm

theorem eraseFirst_append_last {K : Type} [DecidableEq K] {l : List K}
    {k : K} (h : k ∉ l) : eraseFirst (l ++ [k]) k = l := by
  induction l with
  | nil => simp [eraseFirst]
  | cons b rest ih =>
    have hb : b ≠ k := fun he => h (by simp [he])
    rw [List.cons_append]
    simp only [eraseFirst, hb, if_false]
    exact congrArg (b :: ·) (ih (fun hm => h (List.mem_cons_of_mem _ hm)))

theorem removeAt_first_eq_eraseFirst {K : Type} [DecidableEq K] {ks : List K}
    {k : K} {j : Nat} (hnth : nth ks j = some k)
    (hfirst : ∀ m, m < j → nth ks m ≠ some k) :
    removeAt ks j = eraseFirst ks k := by
  induction ks generalizing j with
  | nil => simp [nth] at hnth
  | cons b rest ih =>
    match j with
    | 0 =>
      simp [nth] at hnth
      simp [removeAt, eraseFirst, hnth]
    | j + 1 =>
      simp only [nth] at hnth
      have hb : b ≠ k := by
        intro he
        exact hfirst 0 (by omega) (by simp [nth, he])
      have hrest : ∀ m, m < j → nth rest m ≠ some k := by
        intro m hm he
        exact hfirst (m + 1) (by omega) (by simp only [nth]; exact he)
      simp only [removeAt, eraseFirst, hb, if_false]
      rw [ih hnth hrest]

theorem first_occ_of_nodup {K : Type} {ks : List K} (h : ks.Nodup) {j : Nat}
    {k : K} (hnth : nth ks j = some k) : ∀ m, m < j → nth ks m ≠ some k := by
  induction ks generalizing j with
  | nil => simp [nth] at hnth
  | cons b rest ih =>
    rw [List.nodup_cons] at h
    match j with
    | 0 => intro m hm; omega
    | j + 1 =>
      simp only [nth] at hnth
      intro m hm
      match m with
      | 0 =>
        intro he
        simp [nth] at he
        exact h.1 (he ▸ nth_mem hnth)
      | m + 1 =>
        intro he
        simp only [nth] at he
        exact ih h.2 hnth m (by omega) he

theorem lastE_append_singleton {α : Type} (l : List α) (a : α) :
    lastE (l ++ [a]) = some a := by
  induction l with
  | nil => rfl
  | cons b rest ih =>
    match rest with
    | [] => rfl
    | c :: rest2 => simpa [lastE] using ih

theorem exists_append_of_lastE {α : Type} {l : List α} {a : α}
    (h : lastE l = some a) : ∃ l0, l = l0 ++ [a] := by
  induction l with
  | nil => simp [lastE] at h
  | cons b rest ih =>
    match rest with
    | [] =>
      simp [lastE] at h
      exact ⟨[], by simp [h]⟩
    | c :: rest2 =>
      simp only [lastE] at h
      obtain ⟨l0, hl⟩ := ih h
      exact ⟨b :: l0, by simp [hl]⟩

theorem mapSet_of_not_mem {K : Type} [DecidableEq K] {m : List (K × Nat)}
    {k : K} (i : Nat) (h : ∀ p ∈ m, p.1 ≠ k) : mapSet m k i = m ++ [(k, i)] := by
  induction m with
  | nil => rfl
  | cons p rest ih =>
    obtain ⟨k1, j⟩ := p
    have hk : k1 ≠ k := h (k1, j) (by simp)
    simp only [mapSet, hk, if_false, List.cons_append]
    rw [ih (fun q hq => h q (List.mem_cons_of_mem _ hq))]

theorem buildFrames_eq {K V : Type} [DecidableEq K] {l : List (K × V)}
    (i : Nat) {m : List (K × Nat)} (hnd : (l.map Prod.fst).Nodup)
    (hdis : ∀ p ∈ m, p.1 ∉ l.map Prod.fst) :
    buildFrames l i m = m ++ reindexFrom i (l.map Prod.fst) := by
  induction l generalizing i m with
  | nil => simp [buildFrames, reindexFrom]
  | cons p rest ih =>
    obtain ⟨k, v⟩ := p
    simp only [List.map_cons, List.nodup_cons] at hnd
    have hfresh : ∀ q ∈ m, q.1 ≠ k := by
      intro q hq he
      exact hdis q hq (by simp [he])
    simp only [buildFrames]
    rw [mapSet_of_not_mem i hfresh]
    rw [ih (i + 1) hnd.2 ?_]
    · simp [reindexFrom]
    · intro q hq
      rcases List.mem_append.mp hq with h1 | h1
      · exact fun hm => hdis q h1 (by simp [hm])
      · simp only [List.mem_singleton] at h1
        subst h1
        simpa using hnd.1

theorem take_all_of_length_le {α : Type} {l : List α} {n : Nat}
    (h : l.length ≤ n) : l.take n = l := by
  induction l generalizing n with
  | nil => simp
  | cons a rest ih =>
    match n with
    | 0 => simp at h
    | n + 1 =>
      rw [List.take_succ_cons]
      rw [ih (by simp only [List.length_cons] at h; omega)]

/-! ### Field-preservation facts and frame-rebuild characterizations -/

theorem promoteFrame_items {K V : Type} [DecidableEq K] (s : LRUState K V)
    (k : K) : (promoteFrame s k).items = s.items := rfl

theorem promoteFrame_capacity {K V : Type} [DecidableEq K] (s : LRUState K V)
    (k : K) : (promoteFrame s k).capacity = s.capacity := rfl

theorem promoteFrame_strategy {K V : Type} [DecidableEq K] (s : LRUState K V)
    (k : K) : (promoteFrame s k).strategy = s.strategy := rfl

theorem promoteFrame_bytesUsed {K V : Type} [DecidableEq K] (s : LRUState K V)
    (k : K) : (promoteFrame s k).bytesUsed = s.bytesUsed := rfl

theorem dropFrame_items {K V : Type} [DecidableEq K] (s : LRUState K V)
    (k : K) : (dropFrame s k).items = s.items := rfl

theorem dropFrame_capacity {K V : Type} [DecidableEq K] (s : LRUState K V)
    (k : K) : (dropFrame s k).capacity = s.capacity := rfl

theorem dropFrame_strategy {K V : Type} [DecidableEq K] (s : LRUState K V)
    (k : K) : (dropFrame s k).strategy = s.strategy := rfl

theorem dropFrame_bytesUsed {K V : Type} [DecidableEq K] (s : LRUState K V)
    (k : K) : (dropFrame s k).bytesUsed = s.bytesUsed := rfl

theorem int_pos_of_gt_neg_one {c : Int} (h : c > -1) : 0 ≤ c := by omega

/-- `promoteFrame` when the promoted key list fits under the capacity (or no
truncation applies): the index becomes exactly the promoted key order. -/
theorem promoteFrame_frames_of_fit {K V : Type} [DecidableEq K]
    {s : LRUState K V} {ks0 : List K} (k : K)
    (hf : s.frames = reindexFrom 0 ks0)
    (hfit : s.strategy = LRUMemoryStrategy.ITEMS → 0 ≤ s.capacity →
      (k :: eraseFirst ks0 k).length ≤ s.capacity.toNat) :
    (promoteFrame s k).frames = reindexFrom 0 (k :: eraseFirst ks0 k) := by
  have hkeys : framesKeys s = ks0 := by
    rw [framesKeys, hf, map_fst_reindexFrom]
  show reindexFrom 0 ((k :: eraseFirst (framesKeys s) k).take _) = _
  rw [hkeys]
  by_cases hcond : s.capacity > -1 ∧ s.strategy = LRUMemoryStrategy.ITEMS
  · have hle := hfit hcond.2 (int_pos_of_gt_neg_one hcond.1)
    rw [if_pos hcond, Nat.min_eq_left hle, take_all_of_length_le (Nat.le_refl _)]
  · rw [if_neg hcond, take_all_of_length_le (Nat.le_refl _)]

/-- `dropFrame` on a present key whose remainder fits under the capacity. -/
theorem dropFrame_frames_of_fit {K V : Type} [DecidableEq K]
    {s : LRUState K V} {ks0 : List K} {k : K}
    (hf : s.frames = reindexFrom 0 ks0) (hmem : k ∈ ks0)
    (hfit : 0 ≤ s.capacity → (eraseFirst ks0 k).length ≤ s.capacity.toNat) :
    (dropFrame s k).frames = reindexFrom 0 (eraseFirst ks0 k) := by
  have hkeys : framesKeys s = ks0 := by
    rw [framesKeys, hf, map_fst_reindexFrom]
  show reindexFrom 0 ((if k ∈ framesKeys s then eraseFirst (framesKeys s) k
    else (framesKeys s).dropLast).take _) = _
  rw [hkeys]
  rw [if_pos hmem]
  by_cases hcond : s.capacity > -1
  · have hle := hfit (int_pos_of_gt_neg_one hcond)
    rw [if_pos hcond, Nat.min_eq_left hle, take_all_of_length_le (Nat.le_refl _)]
  · rw [if_neg hcond, take_all_of_length_le (Nat.le_refl _)]

/-! ### Bridging well-formedness to lookups -/

theorem keysOf_length {K V : Type} (s : LRUState K V) :
    (keysOf s).length = s.items.length := by
  simp [keysOf]

theorem mapGet_wf_none {K V : Type} [DecidableEq K] {s : LRUState K V}
    (hwf : WF s) (k : K) : mapGet s.frames k = none ↔ k ∉ keysOf s := by
  rw [hwf.1]
  exact mapGet_reindexFrom_eq_none 0 (keysOf s) k

theorem mapGet_wf_some {K V : Type} [DecidableEq K] {s : LRUState K V}
    {k : K} {j : Nat} (hwf : WF s) (hget : mapGet s.frames k = some j) :
    nth (keysOf s) j = some k ∧ ∀ m, m < j → nth (keysOf s) m ≠ some k := by
  rw [hwf.1] at hget
  obtain ⟨j0, hj, hnth, hfirst⟩ := mapGet_reindexFrom_eq_some hget
  have : j = j0 := by omega
  subst this
  exact ⟨hnth, hfirst⟩

theorem nth_keysOf {K V : Type} {s : LRUState K V} {j : Nat} {k : K}
    (h : nth (keysOf s) j = some k) :
    ∃ e, nth s.items j = some e ∧ e.key = k := by
  rw [keysOf, nth_map] at h
  cases hn : nth s.items j with
  | none => rw [hn] at h; simp at h
  | some e =>
    rw [hn] at h
    simp at h
    exact ⟨e, rfl, h⟩

theorem lookupList_of_nth {K V : Type} [DecidableEq K]
    {items : List (Entry K V)} (hnd : (items.map Entry.key).Nodup) {j : Nat}
    {e : Entry K V} (h : nth items j = some e) :
    lookupValue.lookupList items e.key = some e.value := by
  induction items generalizing j with
  | nil => simp [nth] at h
  | cons e1 rest ih =>
    simp only [List.map_cons, List.nodup_cons] at hnd
    match j with
    | 0 =>
      simp [nth] at h
      subst h
      simp [lookupValue.lookupList]
    | j + 1 =>
      simp only [nth] at h
      have hne : e1.key ≠ e.key := by
        intro he
        exact hnd.1 (he ▸ List.mem_map_of_mem Entry.key (nth_mem h))
      simp only [lookupValue.lookupList, hne, if_false]
      exact ih hnd.2 h

theorem lookupValue_of_nth {K V : Type} [DecidableEq K] {s : LRUState K V}
    (hnd : (keysOf s).Nodup) {j : Nat} {e : Entry K V}
    (h : nth s.items j = some e) : lookupValue s e.key = some e.value :=
  lookupList_of_nth hnd h

theorem lookupList_eq_none {K V : Type} [DecidableEq K]
    {items : List (Entry K V)} {k : K} (h : k ∉ items.map Entry.key) :
    lookupValue.lookupList items k = none := by
  induction items with
  | nil => rfl
  | cons e rest ih =>
    simp only [List.map_cons, List.mem_cons, not_or] at h
    have hne : e.key ≠ k := fun he => h.1 he.symm
    simp only [lookupValue.lookupList, hne, if_false]
    exact ih h.2

theorem lookupValue_eq_none {K V : Type} [DecidableEq K] {s : LRUState K V}
    {k : K} (h : k ∉ keysOf s) : lookupValue s k = none :=
  lookupList_eq_none h

/-! ### Operation specifications on well-formed states -/

theorem evictOverflowItems_strategy {K V : Type} (s : LRUState K V) :
    (evictOverflowItems s).strategy = s.strategy := by
  rw [evictOverflowItems]; split <;> rfl

theorem evictOverflowItems_capacity {K V : Type} (s : LRUState K V) :
    (evictOverflowItems s).capacity = s.capacity := by
  rw [evictOverflowItems]; split <;> rfl

theorem evictOverflowItems_bytesUsed {K V : Type} (s : LRUState K V) :
    (evictOverflowItems s).bytesUsed = s.bytesUsed := by
  rw [evictOverflowItems]; split <;> rfl

theorem evictOverflowItems_frames {K V : Type} (s : LRUState K V) :
    (evictOverflowItems s).frames = s.frames := by
  rw [evictOverflowItems]; split <;> rfl

/-- `peek` on a well-formed state never crashes. -/
theorem peekRun_wf_isSome {K V : Type} [DecidableEq K] {s : LRUState K V}
    (hwf : WF s) (k : K) : ∃ r, peekRun s k = some r := by
  cases hm : mapGet s.frames k with
  | none => exact ⟨none, by simp [peekRun, hm]⟩
  | some j =>
    obtain ⟨hnth, _⟩ := mapGet_wf_some hwf hm
    obtain ⟨e, he, _⟩ := nth_keysOf hnth
    exact ⟨some e.value, by simp [peekRun, hm, he]⟩

/-- `get` on a present key of a well-formed state: returns the stored value,
moves the entry to the head, and preserves well-formedness. -/
theorem getShared_wf_spec {K V : Type} [DecidableEq K] {s : LRUState K V}
    {k : K} {j : Nat} (hwf : WF s) (hget : mapGet s.frames k = some j) :
    ∃ e s', nth s.items j = some e ∧ e.key = k ∧
      getShared k s = some (some e.value, s') ∧
      s'.items = e :: removeAt s.items j ∧
      s'.strategy = s.strategy ∧ s'.capacity = s.capacity ∧
      s'.bytesUsed = s.bytesUsed ∧ WF s' ∧
      lookupValue s k = some e.value ∧
      peekRun s k = some (some e.value) := by
  obtain ⟨hf, hnd, hsz⟩ := hwf
  obtain ⟨hnth, hfirst⟩ := mapGet_wf_some ⟨hf, hnd, hsz⟩ hget
  obtain ⟨e, he, hek⟩ := nth_keysOf hnth
  have hkmem : k ∈ keysOf s := nth_mem hnth
  have hkeys1 : keysOf { s with items := e :: removeAt s.items j } =
      k :: eraseFirst (keysOf s) k := by
    show (e :: removeAt s.items j).map Entry.key = _
    rw [List.map_cons, hek]
    congr 1
    rw [map_removeAt]
    exact removeAt_first_eq_eraseFirst hnth hfirst
  have hlen1 : (k :: eraseFirst (keysOf s) k).length = s.items.length := by
    have h1 := length_eraseFirst_of_mem hkmem
    have h2 := keysOf_length s
    simp only [List.length_cons]
    omega
  have hprom := promoteFrame_frames_of_fit
    (s := { s with items := e :: removeAt s.items j }) k hf
    (fun h1 h2 => by
      rw [hlen1]
      exact hsz h1 h2)
  have hkeysP :
      keysOf (promoteFrame { s with items := e :: removeAt s.items j } k) =
        k :: eraseFirst (keysOf s) k := hkeys1
  refine ⟨e, promoteFrame { s with items := e :: removeAt s.items j } k,
    he, hek, ?_, rfl, rfl, rfl, rfl, ⟨?_, ?_, ?_⟩, ?_, ?_⟩
  · simp [getShared, hget, he]
  · rw [hkeysP]; exact hprom
  · rw [hkeysP]
    exact List.nodup_cons.mpr
      ⟨not_mem_eraseFirst_self hnd, nodup_eraseFirst k hnd⟩
  · intro h1 h2
    show (e :: removeAt s.items j).length ≤ s.capacity.toNat
    have h3 := length_removeAt he
    have h4 := hsz h1 h2
    simp only [List.length_cons]
    omega
  · rw [← hek]
    exact lookupValue_of_nth hnd he
  · simp [peekRun, hget, he]

/-- `set` of an absent key on a well-formed count-based state. -/
theorem setCount_fresh_spec {K V : Type} [DecidableEq K] {s : LRUState K V}
    (k : K) (v : V) (hstrat : s.strategy = LRUMemoryStrategy.ITEMS)
    (hwf : WF s) (hnone : mapGet s.frames k = none) :
    ∃ s', setCount k v s = some s' ∧ WF s' ∧ s'.strategy = s.strategy ∧
      s'.capacity = s.capacity ∧ s'.bytesUsed = s.bytesUsed := by
  obtain ⟨hf, hnd, hsz⟩ := hwf
  have hnot : k ∉ keysOf s := (mapGet_wf_none ⟨hf, hnd, hsz⟩ k).mp hnone
  have herase : eraseFirst (keysOf s) k = keysOf s := eraseFirst_of_not_mem hnot
  have hnd1 : (k :: keysOf s).Nodup := List.nodup_cons.mpr ⟨hnot, hnd⟩
  have hkeysF : framesKeys { s with items := Entry.mk k v :: s.items } =
      keysOf s := by
    show s.frames.map Prod.fst = _
    rw [hf, map_fst_reindexFrom]
  have hframes2 :
      (promoteFrame { s with items := Entry.mk k v :: s.items } k).frames =
        reindexFrom 0 ((k :: keysOf s).take
          (if s.capacity > -1 ∧ s.strategy = LRUMemoryStrategy.ITEMS then
            min (k :: keysOf s).length s.capacity.toNat
          else (k :: keysOf s).length)) := by
    show reindexFrom 0
      ((k :: eraseFirst (framesKeys { s with items := Entry.mk k v :: s.items }) k).take _) = _
    rw [hkeysF, herase]
  refine ⟨evictOverflowItems
      (promoteFrame { s with items := Entry.mk k v :: s.items } k),
    ?_, ?_, evictOverflowItems_strategy _, evictOverflowItems_capacity _,
    evictOverflowItems_bytesUsed _⟩
  · simp [setCount, setShared, hnone]
  · by_cases hcap : s.capacity > -1
    · have hcond : s.capacity > -1 ∧ s.strategy = LRUMemoryStrategy.ITEMS :=
        ⟨hcap, hstrat⟩
      rw [if_pos hcond] at hframes2
      have hcapP :
          (promoteFrame { s with items := Entry.mk k v :: s.items } k).capacity
            > -1 := hcap
      have hev : evictOverflowItems
          (promoteFrame { s with items := Entry.mk k v :: s.items } k) =
          { promoteFrame { s with items := Entry.mk k v :: s.items } k with
            items :=
              (promoteFrame { s with items := Entry.mk k v :: s.items } k).items.take
                (promoteFrame { s with items := Entry.mk k v :: s.items } k).frames.length } := by
        rw [evictOverflowItems, if_pos hcapP]
      have hflen :
          (promoteFrame { s with items := Entry.mk k v :: s.items } k).frames.length =
            min (k :: keysOf s).length s.capacity.toNat := by
        rw [hframes2, length_reindexFrom, List.length_take]
        exact Nat.min_eq_left (Nat.min_le_left _ _)
      have hkeysEv : keysOf (evictOverflowItems
          (promoteFrame { s with items := Entry.mk k v :: s.items } k)) =
          (k :: keysOf s).take (min (k :: keysOf s).length s.capacity.toNat) := by
        rw [hev]
        show ((promoteFrame { s with items := Entry.mk k v :: s.items } k).items.take
          (promoteFrame { s with items := Entry.mk k v :: s.items } k).frames.length).map
            Entry.key = _
        rw [hflen, List.map_take]
        rfl
      refine ⟨?_, ?_, ?_⟩
      · rw [hkeysEv, evictOverflowItems_frames]
        exact hframes2
      · rw [hkeysEv]
        exact (List.take_sublist _ _).nodup hnd1
      · intro _ _
        rw [hev]
        show ((promoteFrame { s with items := Entry.mk k v :: s.items } k).items.take
          (promoteFrame { s with items := Entry.mk k v :: s.items } k).frames.length).length
            ≤ s.capacity.toNat
        rw [List.length_take, hflen]
        exact le_trans (Nat.min_le_left _ _) (Nat.min_le_right _ _)
    · have hcond : ¬(s.capacity > -1 ∧ s.strategy = LRUMemoryStrategy.ITEMS) :=
        fun h => hcap h.1
      rw [if_neg hcond, take_all_of_length_le (Nat.le_refl _)] at hframes2
      have hcapP :
          ¬ (promoteFrame { s with items := Entry.mk k v :: s.items } k).capacity
            > -1 := hcap
      have hev : evictOverflowItems
          (promoteFrame { s with items := Entry.mk k v :: s.items } k) =
          promoteFrame { s with items := Entry.mk k v :: s.items } k := by
        rw [evictOverflowItems, if_neg hcapP]
      rw [hev]
      refine ⟨?_, ?_, ?_⟩
      · rw [show keysOf (promoteFrame { s with items := Entry.mk k v :: s.items } k) =
            k :: keysOf s from rfl]
        exact hframes2
      · rw [show keysOf (promoteFrame { s with items := Entry.mk k v :: s.items } k) =
            k :: keysOf s from rfl]
        exact hnd1
      · intro _ h2
        have h2' : (0 : Int) ≤ s.capacity := h2
        exact absurd h2' (by omega)

/-- `set` of the key already at the head of a well-formed count-based
state. -/
theorem setCount_head_spec {K V : Type} [DecidableEq K] {s : LRUState K V}
    (k : K) (v : V) (_hstrat : s.strategy = LRUMemoryStrategy.ITEMS)
    (hwf : WF s) (hzero : mapGet s.frames k = some 0) :
    ∃ s', setCount k v s = some s' ∧ WF s' ∧ s'.strategy = s.strategy ∧
      s'.capacity = s.capacity ∧ s'.bytesUsed = s.bytesUsed := by
  obtain ⟨hf, hnd, hsz⟩ := hwf
  obtain ⟨hnth, _⟩ := mapGet_wf_some ⟨hf, hnd, hsz⟩ hzero
  obtain ⟨e0, he0, hek⟩ := nth_keysOf hnth
  cases hs : s.items with
  | nil => rw [hs] at he0; simp [nth] at he0
  | cons e1 tl =>
    rw [hs] at he0
    simp [nth] at he0
    subst he0
    have hkt : keysOf s = k :: tl.map Entry.key := by
      show s.items.map Entry.key = _
      rw [hs, List.map_cons, hek]
    have herase : eraseFirst (keysOf s) k = tl.map Entry.key := by
      rw [hkt]
      simp [eraseFirst]
    have hidx : 0 < s.items.length := by rw [hs]; simp
    have hlen : (k :: tl.map Entry.key).length = s.items.length := by
      rw [← hkt]
      exact keysOf_length s
    have hset : s.items.set 0 (Entry.mk k v) = Entry.mk k v :: tl := by
      rw [hs]
      rfl
    have hkeysX : keysOf { s with items := s.items.set 0 (Entry.mk k v) } =
        k :: tl.map Entry.key := by
      show (s.items.set 0 (Entry.mk k v)).map Entry.key = _
      rw [hset]
      rfl
    have hfitfun :
        ({ s with items := s.items.set 0 (Entry.mk k v) } : LRUState K V).strategy =
            LRUMemoryStrategy.ITEMS →
          0 ≤ ({ s with items := s.items.set 0 (Entry.mk k v) } : LRUState K V).capacity →
          (k :: eraseFirst (keysOf s) k).length ≤
            ({ s with items := s.items.set 0 (Entry.mk k v) } : LRUState K V).capacity.toNat := by
      intro h1 h2
      rw [herase, hlen]
      exact hsz h1 h2
    have hpromX := promoteFrame_frames_of_fit
      (s := { s with items := s.items.set 0 (Entry.mk k v) }) k hf hfitfun
    rw [herase] at hpromX
    have hkeysP :
        keysOf (promoteFrame { s with items := s.items.set 0 (Entry.mk k v) } k) =
          k :: tl.map Entry.key := hkeysX
    have hlenP :
        (promoteFrame { s with items := s.items.set 0 (Entry.mk k v) } k).items.length =
          s.items.length := by
      show (s.items.set 0 (Entry.mk k v)).length = _
      rw [List.length_set]
    have hwfP : WF (promoteFrame { s with items := s.items.set 0 (Entry.mk k v) } k) := by
      refine ⟨?_, ?_, ?_⟩
      · rw [hkeysP]; exact hpromX
      · rw [hkeysP]; exact hkt ▸ hnd
      · intro h1 h2
        show (s.items.set 0 (Entry.mk k v)).length ≤ s.capacity.toNat
        rw [List.length_set]
        exact hsz h1 h2
    refine ⟨evictOverflowItems
        (promoteFrame { s with items := s.items.set 0 (Entry.mk k v) } k),
      ?_, ?_, evictOverflowItems_strategy _, evictOverflowItems_capacity _,
      evictOverflowItems_bytesUsed _⟩
    · simp [setCount, setShared, hzero, hidx]
    · by_cases hcap : s.capacity > -1
      · have hcapP :
            (promoteFrame { s with items := s.items.set 0 (Entry.mk k v) } k).capacity
              > -1 := hcap
        have hflen :
            (promoteFrame { s with items := s.items.set 0 (Entry.mk k v) } k).frames.length =
              (promoteFrame { s with items := s.items.set 0 (Entry.mk k v) } k).items.length := by
          rw [hpromX, length_reindexFrom, hlen, hlenP]
        have hev : evictOverflowItems
            (promoteFrame { s with items := s.items.set 0 (Entry.mk k v) } k) =
            promoteFrame { s with items := s.items.set 0 (Entry.mk k v) } k := by
          rw [evictOverflowItems, if_pos hcapP, hflen,
            take_all_of_length_le (Nat.le_refl _)]
        rw [hev]
        exact hwfP
      · have hcapP :
            ¬ (promoteFrame { s with items := s.items.set 0 (Entry.mk k v) } k).capacity
              > -1 := hcap
        have hev : evictOverflowItems
            (promoteFrame { s with items := s.items.set 0 (Entry.mk k v) } k) =
            promoteFrame { s with items := s.items.set 0 (Entry.mk k v) } k := by
          rw [evictOverflowItems, if_neg hcapP]
        rw [hev]
        exact hwfP

/-- `remove` of a present key: returns the stored value, deletes the entry,
and (when the store fits the capacity) preserves well-formedness. -/
theorem removeShared_present_spec {K V : Type} [DecidableEq K]
    {s : LRUState K V} {k : K} {j : Nat} (hwf : WF s)
    (hget : mapGet s.frames k = some j) :
    ∃ e s', nth s.items j = some e ∧ e.key = k ∧
      removeShared k s = some (some e.value, s') ∧
      s'.items = removeAt s.items j ∧
      s'.strategy = s.strategy ∧ s'.capacity = s.capacity ∧
      s'.bytesUsed = s.bytesUsed ∧
      lookupValue s k = some e.value ∧ k ∉ keysOf s' ∧
      ((0 ≤ s.capacity → s.items.length ≤ s.capacity.toNat) → WF s') := by
  obtain ⟨hf, hnd, hsz⟩ := hwf
  obtain ⟨hnth, hfirst⟩ := mapGet_wf_some ⟨hf, hnd, hsz⟩ hget
  obtain ⟨e, he, hek⟩ := nth_keysOf hnth
  have hkmem : k ∈ keysOf s := nth_mem hnth
  have hkeys1 : keysOf { s with items := removeAt s.items j } =
      eraseFirst (keysOf s) k := by
    show (removeAt s.items j).map Entry.key = _
    rw [map_removeAt]
    exact removeAt_first_eq_eraseFirst hnth hfirst
  refine ⟨e, dropFrame { s with items := removeAt s.items j } k, he, hek,
    ?_, rfl, rfl, rfl, rfl, ?_, ?_, ?_⟩
  · simp [removeShared, hget, he]
  · rw [← hek]
    exact lookupValue_of_nth hnd he
  · show k ∉ keysOf { s with items := removeAt s.items j }
    rw [hkeys1]
    exact not_mem_eraseFirst_self hnd
  · intro hszcond
    have hlenE : (eraseFirst (keysOf s) k).length + 1 = s.items.length := by
      have h1 := length_eraseFirst_of_mem hkmem
      have h2 := keysOf_length s
      omega
    have hdrop := dropFrame_frames_of_fit
      (s := { s with items := removeAt s.items j }) (k := k) hf hkmem
      (fun h2 => by
        have h4 := hszcond h2
        show (eraseFirst (keysOf s) k).length ≤ s.capacity.toNat
        have h1 := length_eraseFirst_of_mem hkmem
        have h5 := keysOf_length s
        omega)
    have hkeysP : keysOf (dropFrame { s with items := removeAt s.items j } k) =
        eraseFirst (keysOf s) k := hkeys1
    refine ⟨?_, ?_, ?_⟩
    · rw [hkeysP]; exact hdrop
    · rw [hkeysP]; exact nodup_eraseFirst k hnd
    · intro _ h2
      show (removeAt s.items j).length ≤ s.capacity.toNat
      have h3 := length_removeAt he
      have h4 := hszcond h2
      omega

/-- `remove` of an absent key returns `null` and changes nothing. -/
theorem removeShared_absent {K V : Type} [DecidableEq K] {s : LRUState K V}
    {k : K} (hnone : mapGet s.frames k = none) :
    removeShared k s = some (none, s) := by
  simp [removeShared, hnone]

/-- `clear` always restores well-formedness. -/
theorem clearShared_wf {K V : Type} (s : LRUState K V) :
    WF (clearShared s) :=
  ⟨rfl, List.nodup_nil, fun _ _ => Nat.zero_le _⟩

/-! ### Byte-tally bookkeeping lemmas -/

theorem removeShared_preserves {K V : Type} [DecidableEq K]
    {s s' : LRUState K V} {k : K} {r : Option V}
    (h : removeShared k s = some (r, s')) :
    s'.bytesUsed = s.bytesUsed ∧ s'.capacity = s.capacity ∧
      s'.strategy = s.strategy := by
  cases hm : mapGet s.frames k with
  | none =>
    rw [removeShared_absent hm] at h
    obtain ⟨_, h2⟩ := Prod.mk.inj (Option.some.inj h)
    rw [← h2]
    exact ⟨rfl, rfl, rfl⟩
  | some i =>
    cases hn : nth s.items i with
    | none => simp [removeShared, hm, hn] at h
    | some e =>
      simp only [removeShared, hm, hn] at h
      obtain ⟨_, h2⟩ := Prod.mk.inj (Option.some.inj h)
      rw [← h2]
      exact ⟨rfl, rfl, rfl⟩

theorem removeSized_bytes {K V : Type} [DecidableEq K] {vlen : V → Nat}
    {s s' : LRUState K V} {k : K} {r : Option V}
    (h : removeSized vlen k s = some (r, s')) :
    s'.bytesUsed ≤ s.bytesUsed ∧ s'.capacity = s.capacity ∧
      s'.strategy = s.strategy := by
  cases hp : peekRun s k with
  | none => simp [removeSized, hp] at h
  | some pv =>
    simp only [removeSized, hp] at h
    have hpre := removeShared_preserves h
    refine ⟨?_, hpre.2.1, hpre.2.2⟩
    rw [hpre.1]
    show s.bytesUsed - _ ≤ s.bytesUsed
    cases pv with
    | none => simp
    | some v => exact sub_le_self _ (Int.natCast_nonneg _)

theorem evictOverflowBytes_post {K V : Type} [DecidableEq K] {vlen : V → Nat} :
    ∀ {fuel : Nat} {s s' : LRUState K V},
      evictOverflowBytes vlen fuel s = some s' →
      s'.bytesUsed ≤ s'.capacity ∧ s'.capacity = s.capacity := by
  intro fuel
  induction fuel with
  | zero =>
    intro s s' h
    simp [evictOverflowBytes] at h
  | succ n ih =>
    intro s s' h
    simp only [evictOverflowBytes] at h
    split at h
    · split at h
      · exact absurd h (by simp)
      · split at h
        · exact absurd h (by simp)
        · rename_i hr
          have hrec := ih h
          have hb := removeSized_bytes hr
          exact ⟨hrec.1, hrec.2.trans hb.2.1⟩
    · rename_i hc
      cases h
      exact ⟨by omega, rfl⟩

theorem accommodateRun_le {K V : Type} [DecidableEq K] {vlen : V → Nat}
    {b : Int} : ∀ {fuel : Nat} {s s' : LRUState K V},
      accommodateRun vlen fuel b s = some s' →
      s'.bytesUsed ≤ s.bytesUsed ∧ s'.capacity = s.capacity := by
  intro fuel
  induction fuel with
  | zero =>
    intro s s' h
    simp [accommodateRun] at h
  | succ n ih =>
    intro s s' h
    simp only [accommodateRun] at h
    split at h
    · split at h
      · exact absurd h (by simp)
      · split at h
        · exact absurd h (by simp)
        · rename_i hr
          have hrec := ih h
          have hb := removeSized_bytes hr
          exact ⟨hrec.1.trans hb.1, hrec.2.trans hb.2.1⟩
    · cases h
      exact ⟨le_refl _, rfl⟩

theorem accommodateRun_exit {K V : Type} [DecidableEq K] {vlen : V → Nat}
    {b : Int} : ∀ {fuel : Nat} {s s' : LRUState K V},
      accommodateRun vlen fuel b s = some s' →
      s'.bytesUsed + b ≤ s'.capacity := by
  intro fuel
  induction fuel with
  | zero =>
    intro s s' h
    simp [accommodateRun] at h
  | succ n ih =>
    intro s s' h
    simp only [accommodateRun] at h
    split at h
    · split at h
      · exact absurd h (by simp)
      · split at h
        · exact absurd h (by simp)
        · exact ih h
    · rename_i hc
      cases h
      omega

theorem setShared_evict_bytes_post {K V : Type} [DecidableEq K]
    {vlen : V → Nat} {fuel : Nat} {k : K} {v : V} {s s' : LRUState K V}
    (h : setShared (evictOverflowBytes vlen fuel) k v s = some s') :
    s'.bytesUsed ≤ s'.capacity := by
  simp only [setShared] at h
  split at h
  · split at h
    · exact (evictOverflowBytes_post h).1
    · exact absurd h (by simp)
  · exact (evictOverflowBytes_post h).1

theorem setSized_post {K V : Type} [DecidableEq K] {vlen : V → Nat}
    {fuel : Nat} {k : K} {v : V} {s s' : LRUState K V}
    (h : setSized vlen fuel k v s = some s') :
    s'.bytesUsed ≤ s'.capacity := by
  simp only [setSized] at h
  split at h
  · split at h
    · exact setShared_evict_bytes_post h
    · exact absurd h (by simp)
  · exact setShared_evict_bytes_post h

theorem constructSizedLoop_le {K V : Type} [DecidableEq K] {vlen : V → Nat}
    {fuel : Nat} : ∀ {l : List (K × V)} {i : Nat} {s s' : LRUState K V},
      constructSizedLoop vlen fuel l i s = some s' →
      s'.bytesUsed ≤ s.bytesUsed ∧ s'.capacity = s.capacity := by
  intro l
  induction l with
  | nil =>
    intro i s s' h
    simp only [constructSizedLoop] at h
    cases h
    exact ⟨le_refl _, rfl⟩
  | cons p rest ih =>
    intro i s s' h
    obtain ⟨k, v⟩ := p
    simp only [constructSizedLoop] at h
    split at h
    · exact absurd h (by simp)
    · rename_i s1 ha
      have h1 := accommodateRun_le ha
      have h2 := ih h
      constructor
      · exact le_trans h2.1 h1.1
      · exact h2.2.trans h1.2

/-- Removing the tail entry of a well-formed byte-based state that fits its
budget: the last entry goes, the tally drops by its length, well-formedness
is kept. -/
theorem removeSized_last_spec {K V : Type} [DecidableEq K] (vlen : V → Nat)
    {s : LRUState K V} {e : Entry K V} (hwf : WF s)
    (hsz : s.items.length ≤ s.capacity.toNat) (hlast : lastE s.items = some e) :
    ∃ l0 s', s.items = l0 ++ [e] ∧
      removeSized vlen e.key s = some (some e.value, s') ∧
      s'.items = l0 ∧ WF s' ∧ s'.items.length ≤ s'.capacity.toNat ∧
      s'.capacity = s.capacity ∧ s'.strategy = s.strategy ∧
      s'.bytesUsed = s.bytesUsed - (vlen e.value : Int) := by
  obtain ⟨l0, hl0⟩ := exists_append_of_lastE hlast
  obtain ⟨hf, hnd, hszWF⟩ := hwf
  have hkeysApp : keysOf s = l0.map Entry.key ++ [e.key] := by
    show s.items.map Entry.key = _
    rw [hl0, List.map_append]
    rfl
  have hnotin : e.key ∉ l0.map Entry.key := by
    have hnd2 := hkeysApp ▸ hnd
    rw [List.nodup_append] at hnd2
    intro hm
    exact hnd2.2.2 hm (List.mem_singleton_self _)
  have hnthlast : nth (keysOf s) (l0.map Entry.key).length = some e.key := by
    rw [hkeysApp]
    exact nth_append_right_last _ _
  have hfirstlast : ∀ m, m < (l0.map Entry.key).length →
      nth (keysOf s) m ≠ some e.key := by
    intro m hm he2
    rw [hkeysApp, nth_append_left _ hm] at he2
    exact hnotin (nth_mem he2)
  have hlenl0 : (l0.map Entry.key).length = l0.length := by simp
  have hmg : mapGet s.frames e.key = some l0.length := by
    rw [hf]
    have h6 := mapGet_reindexFrom_of_first 0 hnthlast hfirstlast
    rw [Nat.zero_add, hlenl0] at h6
    exact h6
  have hnthit : nth s.items l0.length = some e := by
    rw [hl0]
    exact nth_append_right_last _ _
  have hpeek : peekRun s e.key = some (some e.value) := by
    simp [peekRun, hmg, hnthit]
  have hwf2 : WF { s with bytesUsed := s.bytesUsed - (vlen e.value : Int) } :=
    ⟨hf, hnd, hszWF⟩
  have hmg2 : mapGet
      ({ s with bytesUsed := s.bytesUsed - (vlen e.value : Int) } :
        LRUState K V).frames e.key = some l0.length := hmg
  obtain ⟨e2, s', hnth2, _, hrm, hitems', hstrat', hcap', hbytes', _, _, hwfc⟩ :=
    removeShared_present_spec hwf2 hmg2
  have he2 : e2 = e := by
    have h3 : nth s.items l0.length = some e2 := hnth2
    rw [hnthit] at h3
    exact (Option.some.inj h3).symm
  rw [he2] at hrm
  have hitemsl0 : s'.items = l0 := by
    rw [hitems']
    show removeAt s.items l0.length = l0
    rw [hl0]
    exact removeAt_append_last l0 e
  refine ⟨l0, s', hl0, ?_, hitemsl0, ?_, ?_, hcap', hstrat', hbytes'⟩
  · show removeSized vlen e.key s = some (some e.value, s')
    simp only [removeSized, hpeek]
    exact hrm
  · exact hwfc (fun _ => hsz)
  · rw [hitemsl0]
    have h4 : l0.length + 1 = s.items.length := by
      rw [hl0]
      simp
    have h5 : s'.capacity = s.capacity := hcap'
    rw [h5]
    omega

/-- Well-formedness gives the index-consistency property as the spec words
it. -/
theorem wf_implies_indexConsistent {K V : Type} [DecidableEq K]
    {s : LRUState K V} (hwf : WF s) : IndexConsistent s := by
  obtain ⟨hf, hnd, _⟩ := hwf
  refine ⟨?_, ?_, ?_, ?_⟩
  · rw [hf, map_fst_reindexFrom]; exact hnd
  · intro k; rw [hf, map_fst_reindexFrom]
  · rw [hf, map_snd_reindexFrom, keysOf_length, List.range_eq_range']
  · intro k i hmem
    rw [hf] at hmem
    obtain ⟨j0, hj, hnth⟩ := mem_reindexFrom hmem
    have : i = j0 := by omega
    subst this
    exact nth_keysOf hnth


/-! ### Construction of the count-based variant -/

theorem constructCount_wf {K V : Type} [DecidableEq K] {c : Int}
    {E : List (K × V)} (hc : ¬(c = 0 ∨ c = 1))
    (hnd : (E.map Prod.fst).Nodup) :
    ∃ s0, constructCount c E = some s0 ∧ WF s0 ∧
      s0.strategy = LRUMemoryStrategy.ITEMS ∧ s0.capacity = c := by
  have hcond : ¬(LRUMemoryStrategy.ITEMS = LRUMemoryStrategy.ITEMS ∧
      (c = 0 ∨ c = 1)) := fun h => hc h.2
  have hndR : (E.reverse.map Prod.fst).Nodup := by
    rw [List.map_reverse]
    exact List.nodup_reverse.mpr hnd
  have hndI : ((if c > -1 then E.reverse.take c.toNat else E.reverse).map
      Prod.fst).Nodup := by
    by_cases hcap : c > -1
    · rw [if_pos hcap, List.map_take]
      exact (List.take_sublist _ _).nodup hndR
    · rw [if_neg hcap]
      exact hndR
  have hkeysEq : ((if c > -1 then E.reverse.take c.toNat else E.reverse).map
        (fun p => (⟨p.1, p.2⟩ : Entry K V))).map Entry.key =
      (if c > -1 then E.reverse.take c.toNat else E.reverse).map Prod.fst := by
    rw [List.map_map]
    rfl
  have heq : constructCount (K := K) (V := V) c E =
      some (⟨LRUMemoryStrategy.ITEMS, c,
        (if c > -1 then E.reverse.take c.toNat else E.reverse).map
          (fun p => ⟨p.1, p.2⟩),
        buildFrames (if c > -1 then E.reverse.take c.toNat else E.reverse) 0 [],
        0⟩ : LRUState K V) := by
    unfold constructCount constructShared
    rw [if_neg hcond]
  refine ⟨_, heq, ⟨?_, ?_, ?_⟩, rfl, rfl⟩
  · show buildFrames _ 0 [] = reindexFrom 0 _
    rw [buildFrames_eq 0 hndI (fun p hp => absurd hp (List.not_mem_nil p)),
      List.nil_append]
    exact congrArg (reindexFrom 0) hkeysEq.symm
  · show (((if c > -1 then E.reverse.take c.toNat else E.reverse).map
      (fun p => (⟨p.1, p.2⟩ : Entry K V))).map Entry.key).Nodup
    rw [hkeysEq]
    exact hndI
  · intro _ h2
    show ((if c > -1 then E.reverse.take c.toNat else E.reverse).map
      (fun p => (⟨p.1, p.2⟩ : Entry K V))).length ≤ c.toNat
    rw [List.length_map]
    by_cases hcap : c > -1
    · rw [if_pos hcap]
      exact List.length_take_le _ _
    · have h2' : (0 : Int) ≤ c := h2
      exact absurd h2' (by omega)

/-- The frame rebuild performed by `promoteFrame`, spelled out. -/
theorem promoteFrame_frames {K V : Type} [DecidableEq K] (s : LRUState K V)
    (k : K) :
    (promoteFrame s k).frames =
      reindexFrom 0 ((k :: eraseFirst (framesKeys s) k).take
        (if s.capacity > -1 ∧ s.strategy = LRUMemoryStrategy.ITEMS then
          min (k :: eraseFirst (framesKeys s) k).length s.capacity.toNat
        else (k :: eraseFirst (framesKeys s) k).length)) := rfl

/-- After `promoteFrame` then the count-based `evictOverflow` on a bounded
count-based state, the store fits the capacity and is a prefix of the store
before eviction. -/
theorem evict_promote_le {K V : Type} [DecidableEq K] (X : LRUState K V)
    (k : K) (hcond : X.capacity > -1 ∧ X.strategy = LRUMemoryStrategy.ITEMS) :
    (evictOverflowItems (promoteFrame X k)).items.length ≤ X.capacity.toNat ∧
      ∃ d, X.items = (evictOverflowItems (promoteFrame X k)).items ++ d := by
  have hcapP : (promoteFrame X k).capacity > -1 := hcond.1
  have hev : evictOverflowItems (promoteFrame X k) =
      { promoteFrame X k with
        items := (promoteFrame X k).items.take
          (promoteFrame X k).frames.length } := by
    rw [evictOverflowItems, if_pos hcapP]
  have hflen : (promoteFrame X k).frames.length ≤ X.capacity.toNat := by
    rw [promoteFrame_frames, length_reindexFrom, if_pos hcond, List.length_take]
    exact le_trans (Nat.min_le_left _ _) (Nat.min_le_right _ _)
  constructor
  · rw [hev]
    show ((promoteFrame X k).items.take _).length ≤ _
    rw [List.length_take]
    exact le_trans (Nat.min_le_left _ _) hflen
  · refine ⟨X.items.drop ((promoteFrame X k).frames.length), ?_⟩
    rw [hev]
    show X.items = X.items.take _ ++ X.items.drop _
    exact (List.take_append_drop _ _).symm

/-! ### The accommodate loop on index-consistent states -/

theorem nth_take {α : Type} {l : List α} {m j : Nat} {a : α}
    (h : nth (l.take m) j = some a) : nth l j = some a ∧ j < m := by
  induction l generalizing m j with
  | nil => simp [nth] at h
  | cons b rest ih =>
    match m with
    | 0 => simp [nth] at h
    | m + 1 =>
      rw [List.take_succ_cons] at h
      match j with
      | 0 =>
        simp [nth] at h
        exact ⟨by simp [nth, h], by omega⟩
      | j + 1 =>
        simp only [nth] at h
        obtain ⟨h1, h2⟩ := ih h
        exact ⟨by simp only [nth]; exact h1, by omega⟩

theorem nth_nodup_unique {α : Type} {l : List α} (h : l.Nodup) {i j : Nat}
    {a : α} (hi : nth l i = some a) (hj : nth l j = some a) : i = j := by
  rcases Nat.lt_trichotomy i j with hlt | heq | hlt
  · exact absurd hi (first_occ_of_nodup h hj i hlt)
  · exact heq
  · exact absurd hj (first_occ_of_nodup h hi j hlt)

/-- `remove` of a key whose frame index is in range, spelled out. -/
theorem removeShared_eq_of {K V : Type} [DecidableEq K] {s : LRUState K V}
    {k : K} {j : Nat} {e : Entry K V} (hm : mapGet s.frames k = some j)
    (hn : nth s.items j = some e) :
    removeShared k s =
      some (some e.value, dropFrame { s with items := removeAt s.items j } k) := by
  simp [removeShared, hm, hn]

/-- `dropFrame` of a present key always rebuilds the index as the reindexing
of some prefix of the remaining key order (the prefix is everything when no
truncation applies). -/
theorem dropFrame_frames_take {K V : Type} [DecidableEq K]
    {s : LRUState K V} {ks0 : List K} {k : K}
    (hf : s.frames = reindexFrom 0 ks0) (hmem : k ∈ ks0) :
    ∃ m', (dropFrame s k).frames =
      reindexFrom 0 ((eraseFirst ks0 k).take m') := by
  refine ⟨if s.capacity > -1 then
      min (eraseFirst ks0 k).length s.capacity.toNat
    else (eraseFirst ks0 k).length, ?_⟩
  show reindexFrom 0 ((if k ∈ framesKeys s then eraseFirst (framesKeys s) k
    else (framesKeys s).dropLast).take _) = _
  have hkeys : framesKeys s = ks0 := by
    rw [framesKeys, hf, map_fst_reindexFrom]
  rw [hkeys, if_pos hmem]

/-- One iteration of the `accommodate`/`evictOverflow` loop body on a state
whose index is the reindexing of a prefix of the store's key order: the
sized `remove` of the tail key either changes nothing (tail key not indexed
— the call is a no-op) or deletes exactly the tail entry, and the
prefix-index shape is preserved. -/
theorem removeSized_tail_step {K V : Type} [DecidableEq K] (vlen : V → Nat)
    {s sNext : LRUState K V} {e : Entry K V} {r : Option V} {m : Nat}
    (hf : s.frames = reindexFrom 0 ((keysOf s).take m))
    (hnd : (keysOf s).Nodup) (hlast : lastE s.items = some e)
    (hr : removeSized vlen e.key s = some (r, sNext)) :
    ∃ m', sNext.frames = reindexFrom 0 ((keysOf sNext).take m') ∧
      (keysOf sNext).Nodup ∧ sNext.capacity = s.capacity ∧
      (sNext.items = s.items ∨ s.items = sNext.items ++ [e]) := by
  obtain ⟨l0, hl0⟩ := exists_append_of_lastE hlast
  have hkeysApp : keysOf s = l0.map Entry.key ++ [e.key] := by
    show s.items.map Entry.key = _
    rw [hl0, List.map_append]
    rfl
  have hnotin : e.key ∉ l0.map Entry.key := by
    have hnd2 := hkeysApp ▸ hnd
    rw [List.nodup_append] at hnd2
    intro hmem
    exact hnd2.2.2 hmem (List.mem_singleton_self _)
  have hndl0 : (l0.map Entry.key).Nodup := by
    have hnd2 := hkeysApp ▸ hnd
    rw [List.nodup_append] at hnd2
    exact hnd2.1
  cases hm : mapGet s.frames e.key with
  | none =>
    have hps : peekRun s e.key = some none := by
      simp [peekRun, hm]
    have hmn : mapGet ({ s with bytesUsed := s.bytesUsed - 0 } :
        LRUState K V).frames e.key = none := hm
    have hrs : removeSized vlen e.key s =
        some (none, { s with bytesUsed := s.bytesUsed - 0 }) := by
      simp only [removeSized, hps]
      exact removeShared_absent hmn
    rw [hrs] at hr
    obtain ⟨_, h2⟩ := Prod.mk.inj (Option.some.inj hr)
    rw [← h2]
    exact ⟨m, hf, hnd, rfl, Or.inl rfl⟩
  | some j =>
    have hm2 := hm
    rw [hf] at hm2
    obtain ⟨j0, hj0, hnthT, _⟩ := mapGet_reindexFrom_eq_some hm2
    have hjj : j = j0 := by omega
    subst hjj
    obtain ⟨hnthKs, hjm⟩ := nth_take hnthT
    have hnthLast : nth (keysOf s) (l0.map Entry.key).length = some e.key := by
      rw [hkeysApp]
      exact nth_append_right_last _ _
    have hj : j = (l0.map Entry.key).length :=
      nth_nodup_unique hnd hnthKs hnthLast
    have hlenKs : (keysOf s).length = (l0.map Entry.key).length + 1 := by
      rw [hkeysApp]
      simp
    have hmge : (keysOf s).length ≤ m := by omega
    have hf2 : s.frames = reindexFrom 0 (keysOf s) := by
      rw [hf, take_all_of_length_le hmge]
    have hnthit : nth s.items j = some e := by
      rw [hj, hl0]
      have hll : (l0.map Entry.key).length = l0.length := by simp
      rw [hll]
      exact nth_append_right_last _ _
    have hpeek : peekRun s e.key = some (some e.value) := by
      simp [peekRun, hm, hnthit]
    have hm1 : mapGet ({ s with bytesUsed :=
        s.bytesUsed - (vlen e.value : Int) } : LRUState K V).frames e.key =
        some j := hm
    have hn1 : nth ({ s with bytesUsed :=
        s.bytesUsed - (vlen e.value : Int) } : LRUState K V).items j =
        some e := hnthit
    have hremAt : removeAt s.items j = l0 := by
      rw [hj, hl0]
      have hll : (l0.map Entry.key).length = l0.length := by simp
      rw [hll]
      exact removeAt_append_last l0 e
    have hrB : removeShared e.key
        ({ s with bytesUsed := s.bytesUsed - (vlen e.value : Int) } :
          LRUState K V) = some (r, sNext) := by
      have htmp := hr
      simp only [removeSized, hpeek] at htmp
      exact htmp
    rw [removeShared_eq_of hm1 hn1] at hrB
    obtain ⟨_, h2⟩ := Prod.mk.inj (Option.some.inj hrB)
    have hmemKs : e.key ∈ keysOf s := nth_mem hnthKs
    obtain ⟨m', hm'⟩ := dropFrame_frames_take (k := e.key) hf2 hmemKs
    have herase : eraseFirst (keysOf s) e.key = l0.map Entry.key := by
      rw [hkeysApp]
      exact eraseFirst_append_last hnotin
    rw [herase] at hm'
    have hitN : sNext.items = l0 := by
      rw [← h2]
      exact hremAt
    have hkeysN : keysOf sNext = l0.map Entry.key := by
      rw [keysOf, hitN]
    have hfN : sNext.frames = reindexFrom 0 ((l0.map Entry.key).take m') := by
      rw [← h2]
      exact hm'
    refine ⟨m', ?_, ?_, ?_, Or.inr ?_⟩
    · rw [hkeysN]
      exact hfN
    · rw [hkeysN]
      exact hndl0
    · rw [← h2]
      rfl
    · rw [hitN]
      exact hl0

/-- The `accommodate` loop never disturbs the prefix-index shape, and every
state it returns holds a prefix of the starting store: entries leave only
from the tail. -/
theorem accommodateRun_isPrefix {K V : Type} [DecidableEq K] (vlen : V → Nat) :
    ∀ {fuel : Nat} {b : Int} {s s' : LRUState K V} {m : Nat},
      s.frames = reindexFrom 0 ((keysOf s).take m) → (keysOf s).Nodup →
      accommodateRun vlen fuel b s = some s' →
      ∃ d, s.items = s'.items ++ d := by
  intro fuel
  induction fuel with
  | zero =>
    intro b s s' m _ _ h
    simp [accommodateRun] at h
  | succ n ih =>
    intro b s s' m hf hnd h
    simp only [accommodateRun] at h
    split at h
    · split at h
      · exact absurd h (by simp)
      · rename_i e hl
        split at h
        · exact absurd h (by simp)
        · rename_i r1 s1 hr
          obtain ⟨m', hf', hnd', _, hstep⟩ :=
            removeSized_tail_step vlen hf hnd hl hr
          obtain ⟨d, hd⟩ := ih hf' hnd' h
          rcases hstep with hsame | htail
          · refine ⟨d, ?_⟩
            rw [← hsame]
            exact hd
          · refine ⟨d ++ [e], ?_⟩
            rw [htail, hd, List.append_assoc]
    · cases h
      exact ⟨[], by simp⟩

/-! ### The claims -/

/-- C1 (amended): for the count-based variant, construction from
distinct-key initial entries yields an index-consistent state, and every
public operation preserves index consistency EXCEPT `set` of a key that is
already present away from the head (the counterexample
`index_consistency_cex` shows that case desynchronizes the store and the
index); `set` is therefore guarded to absent-or-head keys here. -/
theorem index_consistency_amended {K V : Type} [DecidableEq K] :
    (∀ (c : Int) (E : List (K × V)), ¬(c = 0 ∨ c = 1) →
      (E.map Prod.fst).Nodup →
      ∃ s0, constructCount c E = some s0 ∧ WF s0 ∧ IndexConsistent s0) ∧
    (∀ (op : CountOp K V) (s s' : LRUState K V),
      s.strategy = LRUMemoryStrategy.ITEMS → WF s → okCountOp op s →
      applyCount op s = some s' → WF s' ∧ IndexConsistent s') := by
  constructor
  · intro c E hc hnd
    obtain ⟨s0, heq, hwf, _, _⟩ := constructCount_wf hc hnd
    exact ⟨s0, heq, hwf, wf_implies_indexConsistent hwf⟩
  · intro op s s' hstrat hwf hok happ
    have hwf' : WF s' := by
      cases op with
      | getC k =>
        simp only [applyCount] at happ
        cases hm : mapGet s.frames k with
        | none =>
          have hid : getShared k s = some (none, s) := by
            simp [getShared, hm]
          rw [hid] at happ
          simp at happ
          rw [← happ]
          exact hwf
        | some j =>
          obtain ⟨e, s2, _, _, hgeq, _, _, _, _, hwf2, _, _⟩ :=
            getShared_wf_spec hwf hm
          rw [hgeq] at happ
          simp at happ
          rw [← happ]
          exact hwf2
      | peekC k =>
        simp only [applyCount] at happ
        obtain ⟨r, hr⟩ := peekRun_wf_isSome hwf k
        rw [hr] at happ
        simp at happ
        rw [← happ]
        exact hwf
      | setC k v =>
        simp only [applyCount] at happ
        rcases hok with hok | hok
        · obtain ⟨s2, heq, hwf2, _, _, _⟩ := setCount_fresh_spec k v hstrat hwf hok
          rw [heq] at happ
          rw [← Option.some.inj happ]
          exact hwf2
        · obtain ⟨s2, heq, hwf2, _, _, _⟩ := setCount_head_spec k v hstrat hwf hok
          rw [heq] at happ
          rw [← Option.some.inj happ]
          exact hwf2
      | removeC k =>
        simp only [applyCount] at happ
        cases hm : mapGet s.frames k with
        | none =>
          rw [removeShared_absent hm] at happ
          simp at happ
          rw [← happ]
          exact hwf
        | some j =>
          obtain ⟨e, s2, _, _, hreq, _, _, _, _, _, _, hwfc⟩ :=
            removeShared_present_spec hwf hm
          rw [hreq] at happ
          simp at happ
          rw [← happ]
          exact hwfc (fun h2 => hwf.2.2 hstrat h2)
      | deleteC k =>
        simp only [applyCount] at happ
        cases hm : mapGet s.frames k with
        | none =>
          rw [removeShared_absent hm] at happ
          simp at happ
          rw [← happ]
          exact hwf
        | some j =>
          obtain ⟨e, s2, _, _, hreq, _, _, _, _, _, _, hwfc⟩ :=
            removeShared_present_spec hwf hm
          rw [hreq] at happ
          simp at happ
          rw [← happ]
          exact hwfc (fun h2 => hwf.2.2 hstrat h2)
      | clearC =>
        simp only [applyCount] at happ
        rw [← Option.some.inj happ]
        exact clearShared_wf s
    exact ⟨hwf', wf_implies_indexConsistent hwf'⟩

/-- C1 counterexample: `new LRUMap(5, [[0, 100], [1, 101]])` followed by
`set(0, 999)` — an update of the existing non-head key `0` — reaches a state
where the index maps key `0` to position 0 while the entry at position 0 has
key `1`: index consistency fails after a public operation. -/
theorem index_consistency_cex :
    c1Run = some c1State ∧ ¬ IndexConsistent c1State := by
  constructor
  · decide
  · intro h
    obtain ⟨-, -, -, h4⟩ := h
    obtain ⟨e, he, hk⟩ := h4 0 0 (by decide)
    have he0 : nth c1State.items 0 = some (Entry.mk 1 101) := rfl
    rw [he0] at he
    rw [← Option.some.inj he] at hk
    exact absurd hk (by decide)

/-- C1 witness: the amended preservation theorem applied to a concrete
well-formed one-entry map and a fresh-key `set`. -/
theorem index_consistency_amended_applied :
    applyCount (CountOp.setC 1 2) w1State = some w1After ∧
      WF w1After ∧ IndexConsistent w1After := by
  have h := (index_consistency_amended (K := Nat) (V := Nat)).2
    (CountOp.setC 1 2) w1State w1After rfl (by decide)
    (Or.inl (by decide)) (by decide)
  exact ⟨by decide, h.1, h.2⟩

/-- C2: byte-tally code bug, evaluated at the failing input.  Constructing
`new LRUSizedMap(10, [[0, <2-byte value>]])` stores the entry but leaves the
running tally `bytesUsed` at 0, while the byte lengths of the stored values
sum to 2 — the constructor computes the tally from the map's values BEFORE
inserting the initial entries (and `values()` reads
`Object.values(this.frames)`, which is empty for a `Map` anyway). -/
theorem byte_tally_construction_bug :
    c2Run = some c2State ∧ c2State.bytesUsed = 0 ∧
      sumBytes vlenNat c2State = 2 := by
  refine ⟨by decide, by decide, by decide⟩

/-- C3: iteration code bug, evaluated at a two-entry map.  `entries()`,
`values()`, `entryIterator()` and the default iteration protocol all iterate
`Object.values(this.frames)`, which is empty for a JS `Map`, so they yield
nothing; only `keys()` (which iterates `[...frames.values()]`) yields the
keys in index-ascending, most-recently-used-first order. -/
theorem iteration_empty_bug :
    c3Run = some c3State ∧ c3State.items.length = 2 ∧
      entriesRun c3State = some [] ∧ valuesRun c3State = some [] ∧
      entryIteratorRun c3State = some [] ∧ keysRun c3State = some [1, 0] := by
  refine ⟨by decide, by decide, by decide, by decide, by decide, by decide⟩

/-- C4: for the byte-based variant, the tally never exceeds the budget after
a call returns: construction leaves `bytesUsed ≤ capacity`, and every
`set`/`remove`/`accommodate` that returns preserves `bytesUsed ≤ capacity`
(so along every sequence of those calls the bound holds after each one). -/
theorem byte_budget_bound {K V : Type} [DecidableEq K] (vlen : V → Nat) :
    (∀ (fuel : Nat) (mb : Int) (E : List (K × V)) (s0 : LRUState K V),
      constructSized vlen fuel mb E = some s0 →
      s0.bytesUsed ≤ s0.capacity) ∧
    (∀ (fuel : Nat) (op : SizedOp K V) (s s' : LRUState K V),
      s.bytesUsed ≤ s.capacity → stepSized vlen fuel op s = some s' →
      s'.bytesUsed ≤ s'.capacity) := by
  constructor
  · intro fuel mb E s0 h
    simp only [constructSized] at h
    split at h
    · exact absurd h (by simp)
    · rename_i hmb
      have hle := constructSizedLoop_le h
      have h1 : s0.bytesUsed ≤ 0 := hle.1
      have h2 : s0.capacity = mb := hle.2
      omega
  · intro fuel op s s' hpre h
    cases op with
    | setS k v => exact setSized_post h
    | removeS k =>
      simp only [stepSized] at h
      cases hr : removeSized vlen k s with
      | none => rw [hr] at h; simp at h
      | some p =>
        obtain ⟨r1, s1⟩ := p
        rw [hr] at h
        simp at h
        have hb := removeSized_bytes hr
        have hb1 : s1.bytesUsed ≤ s.bytesUsed := hb.1
        have hb2 : s1.capacity = s.capacity := hb.2.1
        rw [← h]
        omega
    | accommodateS b =>
      simp only [stepSized] at h
      have h1 := accommodateRun_le h
      have h2 : s'.bytesUsed ≤ s.bytesUsed := h1.1
      rw [h1.2]
      omega

/-- C4 witness: the preservation part applied to an empty byte-based map and
one `set`. -/
theorem byte_budget_bound_applied :
    w4State.bytesUsed ≤ w4State.capacity ∧
      stepSized vlenNat 5 (SizedOp.setS 0 3) w4State = some w4After ∧
      w4After.bytesUsed ≤ w4After.capacity :=
  ⟨by decide, by decide,
    (byte_budget_bound vlenNat).2 5 (SizedOp.setS 0 3) w4State w4After
      (by decide) (by decide)⟩

/-- C5: for the count-based variant with capacity `C ≥ 2`, after any `set`
that returns the store holds at most `C` entries, and (for a fresh key) the
surviving store is a prefix of the post-insertion store — eviction only
truncates from the tail. -/
theorem count_capacity_bound {K V : Type} [DecidableEq K]
    {s s' : LRUState K V} {k : K} {v : V}
    (hstrat : s.strategy = LRUMemoryStrategy.ITEMS)
    (hcap : 2 ≤ s.capacity) (h : setCount k v s = some s') :
    (s'.items.length : Int) ≤ s.capacity ∧
      (mapGet s.frames k = none →
        ∃ d, Entry.mk k v :: s.items = s'.items ++ d) := by
  have h0 : (0 : Int) ≤ s.capacity := by omega
  simp only [setCount, setShared] at h
  split at h
  · rename_i i hm
    split at h
    · have hcond :
          ({ s with items := s.items.set i (Entry.mk k v) } :
            LRUState K V).capacity > -1 ∧
          ({ s with items := s.items.set i (Entry.mk k v) } :
            LRUState K V).strategy = LRUMemoryStrategy.ITEMS :=
        ⟨show s.capacity > -1 by omega, hstrat⟩
      have hle :=
        (evict_promote_le { s with items := s.items.set i (Entry.mk k v) } k
          hcond).1
      have hs' := Option.some.inj h
      constructor
      · rw [← hs']
        have hcast := Int.ofNat_le.mpr hle
        rwa [Int.toNat_of_nonneg h0] at hcast
      · intro hn
        rw [hm] at hn
        exact absurd hn (by simp)
    · exact absurd h (by simp)
  · rename_i hm
    have hcond :
        ({ s with items := Entry.mk k v :: s.items } :
          LRUState K V).capacity > -1 ∧
        ({ s with items := Entry.mk k v :: s.items } :
          LRUState K V).strategy = LRUMemoryStrategy.ITEMS :=
      ⟨show s.capacity > -1 by omega, hstrat⟩
    have hep := evict_promote_le { s with items := Entry.mk k v :: s.items } k
      hcond
    have hs' := Option.some.inj h
    constructor
    · rw [← hs']
      have hcast := Int.ofNat_le.mpr hep.1
      rwa [Int.toNat_of_nonneg h0] at hcast
    · intro _
      rw [← hs']
      exact hep.2

/-- C5 witness: the capacity bound applied to a concrete two-entry map of
capacity 3 receiving a fresh key. -/
theorem count_capacity_bound_applied :
    (w2After.items.length : Int) ≤ w2State.capacity ∧
      (mapGet w2State.frames 6 = none →
        ∃ d, Entry.mk 6 60 :: w2State.items = w2After.items ++ d) :=
  count_capacity_bound rfl (by decide) (by decide)

/-- C6 (amended): on an index-consistent byte-based container state,
`accommodate(bytes)` evicts entries only from the tail, oldest-first (the
surviving store is a prefix of the old store — in particular nothing is
inserted), and returns with `tally + bytes ≤ capacity`.  The counterexample
`accommodate_tail_cex` shows that on reachable states that have been
desynchronized by `set` of an existing non-head key, `accommodate` can evict
the HEAD entry instead, so the index-consistency hypothesis is necessary. -/
theorem accommodate_tail_amended {K V : Type} [DecidableEq K]
    (vlen : V → Nat) {fuel : Nat} {b : Int} {s s' : LRUState K V}
    (_hstrat : s.strategy = LRUMemoryStrategy.BYTES) (hwf : WF s)
    (h : accommodateRun vlen fuel b s = some s') :
    (∃ d, s.items = s'.items ++ d) ∧ s'.bytesUsed + b ≤ s.capacity ∧
      s'.capacity = s.capacity := by
  obtain ⟨hf, hnd, _⟩ := hwf
  have hfT : s.frames =
      reindexFrom 0 ((keysOf s).take (keysOf s).length) := by
    rw [take_all_of_length_le (Nat.le_refl _)]
    exact hf
  have hle := accommodateRun_le h
  have hexit := accommodateRun_exit h
  refine ⟨accommodateRun_isPrefix vlen hfT hnd h, ?_, hle.2⟩
  rw [hle.2] at hexit
  exact hexit

/-- C6 counterexample: the reachable state `c6State` (byte budget 10, tail
entry has key 0) on which `accommodate(9)` evicts the HEAD entry of key 1
while the tail entry survives — it does not evict only from the tail, as the
claim states for every byte-based container state. -/
theorem accommodate_tail_cex :
    c6Run = some c6State ∧
      accommodateRun vlenNat 100 9 c6State = some c6After ∧
      tailEntry c6State = some ⟨0, 1⟩ ∧
      c6After.items = [⟨0, 1⟩] ∧
      hasKey c6State 1 = true ∧ (1 : Nat) ∉ keysOf c6After ∧
      ¬ ∃ d, c6State.items = c6After.items ++ d := by
  refine ⟨by decide, by decide, by decide, by decide, by decide, by decide, ?_⟩
  rintro ⟨d, hd⟩
  have h2 := congrArg (fun l => nth l 0) hd
  simp only [c6State, c6After] at h2
  exact absurd (Option.some.inj h2) (by decide)

/-- C6 witness: the amended theorem applied to a concrete well-formed
byte-based state. -/
theorem accommodate_tail_amended_applied :
    (∃ d, wbState.items = wbAfter.items ++ d) ∧
      wbAfter.bytesUsed + 5 ≤ wbState.capacity ∧
      wbAfter.capacity = wbState.capacity := by
  have hrun : accommodateRun vlenNat 3 5 wbState = some wbAfter := by decide
  exact accommodate_tail_amended vlenNat rfl (by decide) hrun

/-- C7 (amended): on an index-consistent state, `delete(k)` performs exactly
the removal `remove(k)` performs (same resulting state), but — because the
code returns `!!this.remove(key)` — it returns `true` iff an entry was
present AND its removed value is JS-truthy; a present entry with a falsy
value (e.g. the number 0 or an empty string) is removed yet `delete` returns
`false`, as `delete_boolean_cex` shows. -/
theorem delete_boolean_amended {K V : Type} [DecidableEq K]
    (truthy : V → Bool) {s : LRUState K V} (k : K) (hwf : WF s) :
    ∃ r s', removeShared k s = some (r, s') ∧
      deleteCount truthy k s = some ((r.map truthy).getD false, s') ∧
      r = lookupValue s k ∧
      ((r.map truthy).getD false = true ↔
        ∃ v, lookupValue s k = some v ∧ truthy v = true) ∧
      k ∉ keysOf s' := by
  cases hm : mapGet s.frames k with
  | none =>
    have hr := removeShared_absent (s := s) hm
    have hnone : lookupValue s k = none :=
      lookupValue_eq_none ((mapGet_wf_none hwf k).mp hm)
    refine ⟨none, s, hr, ?_, hnone.symm, ?_, ?_⟩
    · simp [deleteCount, hr]
    · simp [hnone]
    · exact (mapGet_wf_none hwf k).mp hm
  | some j =>
    obtain ⟨e, s', _, _, hr, _, _, _, _, hlook, hnot, _⟩ :=
      removeShared_present_spec hwf hm
    refine ⟨some e.value, s', hr, ?_, hlook.symm, ?_, hnot⟩
    · simp [deleteCount, hr]
    · simp [hlook]

/-- C7 counterexample: `new LRUMap(-1, [[7, 0]])` then `delete(7)` — the
entry is present and is removed (the resulting store is empty), but `delete`
returns `false` because the stored value `0` is JS-falsy. -/
theorem delete_boolean_cex :
    c7Run = some (false, ⟨LRUMemoryStrategy.ITEMS, -1, [], [], 0⟩) ∧
      (constructCount (-1) [(7, 0)] : Option (LRUState Nat Nat)) =
        some ⟨LRUMemoryStrategy.ITEMS, -1, [⟨7, 0⟩], [(7, 0)], 0⟩ ∧
      hasKey (⟨LRUMemoryStrategy.ITEMS, -1, [⟨7, 0⟩], [(7, 0)], 0⟩ :
        LRUState Nat Nat) 7 = true := by
  refine ⟨by decide, by decide, by decide⟩

/-- C7 witness: the amended theorem applied to a concrete map holding a
truthy value. -/
theorem delete_boolean_amended_applied :
    ∃ r s', removeShared 0 w1State = some (r, s') ∧
      deleteCount jsTruthyNat 0 w1State =
        some ((r.map jsTruthyNat).getD false, s') ∧
      r = lookupValue w1State 0 ∧
      ((r.map jsTruthyNat).getD false = true ↔
        ∃ v, lookupValue w1State 0 = some v ∧ jsTruthyNat v = true) ∧
      0 ∉ keysOf s' :=
  delete_boolean_amended jsTruthyNat 0 (by decide)

/-- C8 (amended): on an index-consistent state, `get(k)` of a present key
returns the stored value and moves `k`'s entry to the head, and `peek(k)`
returns the same value; `peek` is embedded as a pure function of the state
(the source `peek` performs no mutation), so it changes neither head, tail,
order nor index.  On reachable states desynchronized by the `set` bug this
fails, as `get_peek_recency_cex` shows. -/
theorem get_peek_recency_amended {K V : Type} [DecidableEq K]
    {s : LRUState K V} {k : K} {j : Nat} (hwf : WF s)
    (hget : mapGet s.frames k = some j) :
    ∃ e s', nth s.items j = some e ∧ e.key = k ∧
      lookupValue s k = some e.value ∧
      peekRun s k = some (some e.value) ∧
      getShared k s = some (some e.value, s') ∧
      headEntry s' = some e ∧
      s'.items = e :: removeAt s.items j ∧ WF s' := by
  obtain ⟨e, s', h1, h2, h3, h4, _, _, _, h8, h9, h10⟩ :=
    getShared_wf_spec hwf hget
  refine ⟨e, s', h1, h2, h9, h10, h3, ?_, h4, h8⟩
  show nth s'.items 0 = some e
  rw [h4]
  rfl

/-- C8 counterexample: on the reachable state `c8State`, `get(0)` returns
101 — the value stored under key 1 — although key 0's stored value is 999,
and it does not move key 0's entry to the head (the head keeps key 1).  The
claim fails on this container state. -/
theorem get_peek_recency_cex :
    c8Run = some c8State ∧
      getShared 0 c8State = some (some 101, c8State) ∧
      lookupValue c8State 0 = some 999 ∧ (101 : Nat) ≠ 999 ∧
      (headEntry c8State).map Entry.key = some 1 := by
  refine ⟨by decide, by decide, by decide, by decide, by decide⟩

/-- C8 witness: the amended theorem applied to a concrete two-entry map,
getting the key at position 1. -/
theorem get_peek_recency_amended_applied :
    ∃ e s', nth w2State.items 1 = some e ∧ e.key = 5 ∧
      lookupValue w2State 5 = some e.value ∧
      peekRun w2State 5 = some (some e.value) ∧
      getShared 5 w2State = some (some e.value, s') ∧
      headEntry s' = some e ∧
      s'.items = e :: removeAt w2State.items 1 ∧ WF s' :=
  get_peek_recency_amended (by decide) (by decide)

/-- C9 (amended): the count-based constructor throws exactly for capacity 0
and capacity 1; every other capacity — including every negative value, not
only the documented sentinel -1 — is accepted (the standalone variant in
`src/LRUArray.ts` performs the identical `capacity === 0 || capacity === 1`
test). -/
theorem construct_throws_iff {K V : Type} [DecidableEq K] (c : Int)
    (E : List (K × V)) :
    constructCount c E = none ↔ (c = 0 ∨ c = 1) := by
  unfold constructCount constructShared
  by_cases hc : c = 0 ∨ c = 1
  · rw [if_pos ⟨rfl, hc⟩]
    simp [hc]
  · rw [if_neg (fun h => hc h.2)]
    simp [hc]

/-- C9 counterexample: capacity -2 is NOT rejected — the constructor accepts
it (while 0 and 1 do throw), contradicting the claim that every negative
capacity other than -1 is rejected at construction. -/
theorem construct_negative_accepted_cex :
    (constructCount (-2) ([] : List (Nat × Nat))).isSome = true ∧
      constructCount 0 ([] : List (Nat × Nat)) = none ∧
      constructCount 1 ([] : List (Nat × Nat)) = none := by
  refine ⟨by decide, by decide, by decide⟩

/-- C10: every negative capacity behaves as unbounded for the count-based
variant: the constructor accepts it and never truncates the initial entries
(every capacity check tests only `capacity > -1`), and `set` never evicts —
the store grows by exactly one entry for a fresh key and keeps its length
for an existing key. -/
theorem negative_capacity_unbounded {K V : Type} [DecidableEq K] :
    (∀ (c : Int) (E : List (K × V)), c < 0 →
      ∃ s0, constructCount c E = some s0 ∧ s0.items.length = E.length ∧
        s0.capacity = c) ∧
    (∀ (s s' : LRUState K V) (k : K) (v : V), s.capacity < 0 →
      setCount k v s = some s' →
      s'.items.length = s.items.length +
        (if (mapGet s.frames k).isSome then 0 else 1)) := by
  constructor
  · intro c E hc
    have hcond : ¬(LRUMemoryStrategy.ITEMS = LRUMemoryStrategy.ITEMS ∧
        (c = 0 ∨ c = 1)) := by
      rintro ⟨-, h2 | h2⟩ <;> omega
    have hcap : ¬ c > -1 := by omega
    refine ⟨_, by unfold constructCount constructShared; rw [if_neg hcond], ?_, rfl⟩
    show ((if c > -1 then E.reverse.take c.toNat else E.reverse).map
      (fun p => (⟨p.1, p.2⟩ : Entry K V))).length = E.length
    rw [if_neg hcap, List.length_map, List.length_reverse]
  · intro s s' k v hc h
    simp only [setCount, setShared] at h
    split at h
    · rename_i i hm
      split at h
      · have hcapP : ¬ (promoteFrame
            { s with items := s.items.set i (Entry.mk k v) } k).capacity > -1 := by
          show ¬ s.capacity > -1
          omega
        have hev : evictOverflowItems (promoteFrame
            { s with items := s.items.set i (Entry.mk k v) } k) =
            promoteFrame { s with items := s.items.set i (Entry.mk k v) } k := by
          rw [evictOverflowItems, if_neg hcapP]
        rw [hev] at h
        rw [← Option.some.inj h]
        show (s.items.set i (Entry.mk k v)).length = _
        rw [List.length_set, hm]
        rfl
      · exact absurd h (by simp)
    · rename_i hm
      have hcapP : ¬ (promoteFrame
          { s with items := Entry.mk k v :: s.items } k).capacity > -1 := by
        show ¬ s.capacity > -1
        omega
      have hev : evictOverflowItems (promoteFrame
          { s with items := Entry.mk k v :: s.items } k) =
          promoteFrame { s with items := Entry.mk k v :: s.items } k := by
        rw [evictOverflowItems, if_neg hcapP]
      rw [hev] at h
      rw [← Option.some.inj h]
      show (Entry.mk k v :: s.items).length = _
      rw [List.length_cons, hm]
      rfl

/-- C10 witness: construction with capacity -2 keeps both initial entries,
and a fresh-key `set` on a capacity -2 map grows the store by one. -/
theorem negative_capacity_unbounded_applied :
    (∃ s0, constructCount (-2) ([(0, 5), (1, 6)] : List (Nat × Nat)) =
      some s0 ∧ s0.items.length = [(0, 5), (1, 6)].length ∧
      s0.capacity = -2) ∧
    w10After.items.length = w10State.items.length +
      (if (mapGet w10State.frames 2).isSome then 0 else 1) :=
  ⟨(negative_capacity_unbounded (V := Nat)).1 (-2) [(0, 5), (1, 6)] (by decide),
    (negative_capacity_unbounded).2 w10State w10After 2 7 (by decide)
      (by decide)⟩

end LRUSpec
